import Mathlib

/-!
Verification of the Solar Cube integration's query/reshape pipeline and
provisioning merge routines, shallowly embedded from
`custom_components/solar_cube/api.py` and
`custom_components/solar_cube/__init__.py`.

Python dictionaries are modelled as insertion-ordered association lists with
unique keys (`pyInsert` mirrors `d[k] = v`, `pyLookup` mirrors `d.get(k)`,
`containsKey` mirrors `k in d`).
-/

namespace SolarCube

/-! ## Python dict primitives (insertion-ordered association lists) -/

/-- Assignment `d[k] = v` on a Python dict: replaces the value in place if the
key is present (keeping its position), otherwise appends the pair at the end. -/
def pyInsert {α : Type} (d : List (String × α)) (k : String) (v : α) :
    List (String × α) :=
  match d with
  | [] => [(k, v)]
  | (k₂, v₂) :: rest => if k₂ = k then (k, v) :: rest else (k₂, v₂) :: pyInsert rest k v

/-- Lookup `d.get(k)` on a Python dict (first matching key). -/
def pyLookup {α : Type} (d : List (String × α)) (k : String) : Option α :=
  match d with
  | [] => none
  | (k₂, v) :: rest => if k₂ = k then some v else pyLookup rest k

/-- Membership test `k in d` on a Python dict. -/
def containsKey {α : Type} (d : List (String × α)) (k : String) : Bool :=
  d.any (fun kv => kv.1 == k)

/-- Keys of a Python dict, in insertion order. -/
def pyKeys {α : Type} (d : List (String × α)) : List String :=
  d.map Prod.fst

/-- In-place update of the entry stored at key `k` (models mutation of a dict
stored inside another dict, as in `outer[k][k2] = v`). -/
def updateAt {α : Type} (d : List (String × α)) (k : String) (f : α → α) :
    List (String × α) :=
  match d with
  | [] => []
  | (k₂, v) :: rest => if k₂ = k then (k₂, f v) :: rest else (k₂, v) :: updateAt rest k f

@[simp]
theorem pyKeys_nil {α : Type} : pyKeys ([] : List (String × α)) = [] := rfl

@[simp]
theorem pyKeys_cons {α : Type} (kv : String × α) (d : List (String × α)) :
    pyKeys (kv :: d) = kv.1 :: pyKeys d := rfl

@[simp]
theorem pyKeys_append {α : Type} (d e : List (String × α)) :
    pyKeys (d ++ e) = pyKeys d ++ pyKeys e := by
  simp [pyKeys]

theorem pyLookup_pyInsert_self {α : Type} (d : List (String × α)) (k : String) (v : α) :
    pyLookup (pyInsert d k v) k = some v := by
  induction d with
  | nil => simp [pyInsert, pyLookup]
  | cons kv rest ih =>
    obtain ⟨k₂, v₂⟩ := kv
    by_cases h : k₂ = k <;> simp [pyInsert, pyLookup, h, ih]

theorem pyLookup_pyInsert_other {α : Type} (d : List (String × α)) (k k' : String) (v : α)
    (h : k' ≠ k) : pyLookup (pyInsert d k v) k' = pyLookup d k' := by
  induction d with
  | nil => simp [pyInsert, pyLookup, Ne.symm h]
  | cons kv rest ih =>
    obtain ⟨k₂, v₂⟩ := kv
    by_cases h₂ : k₂ = k
    · subst h₂
      simp [pyInsert, pyLookup, Ne.symm h]
    · by_cases h₃ : k₂ = k' <;> simp [pyInsert, pyLookup, h₂, h₃, h, ih]

theorem pyInsert_eq_of_lookup {α : Type} (d : List (String × α)) (k : String) (v : α)
    (h : pyLookup d k = some v) : pyInsert d k v = d := by
  induction d with
  | nil => simp [pyLookup] at h
  | cons kv rest ih =>
    obtain ⟨k₂, v₂⟩ := kv
    by_cases h₂ : k₂ = k
    · subst h₂
      simp [pyLookup] at h
      simp [pyInsert, h]
    · simp [pyLookup, h₂] at h
      simp [pyInsert, h₂, ih h]

theorem containsKey_iff_mem_pyKeys {α : Type} (d : List (String × α)) (k : String) :
    containsKey d k = true ↔ k ∈ pyKeys d := by
  simp only [containsKey, List.any_eq_true, beq_iff_eq, pyKeys, List.mem_map]

theorem pyKeys_pyInsert_mem {α : Type} (d : List (String × α)) (k : String) (v : α)
    (h : k ∈ pyKeys d) : pyKeys (pyInsert d k v) = pyKeys d := by
  induction d with
  | nil => simp at h
  | cons kv rest ih =>
    obtain ⟨k₂, v₂⟩ := kv
    by_cases h₂ : k₂ = k
    · simp [pyInsert, h₂]
    · have h' : k ∈ pyKeys rest := by
        rcases List.mem_cons.mp (by simpa using h) with h₃ | h₃
        · exact absurd h₃.symm h₂
        · exact h₃
      simp [pyInsert, h₂, ih h']

theorem pyKeys_pyInsert_not_mem {α : Type} (d : List (String × α)) (k : String) (v : α)
    (h : ¬ k ∈ pyKeys d) : pyKeys (pyInsert d k v) = pyKeys d ++ [k] := by
  induction d with
  | nil => simp [pyInsert]
  | cons kv rest ih =>
    obtain ⟨k₂, v₂⟩ := kv
    have h₁ : ¬ k₂ = k := fun he => h (by simp [he])
    have h₂ : ¬ k ∈ pyKeys rest := fun hm => h (by simp [hm])
    simp [pyInsert, h₁, ih h₂]

theorem pyKeys_updateAt {α : Type} (d : List (String × α)) (k : String) (f : α → α) :
    pyKeys (updateAt d k f) = pyKeys d := by
  induction d with
  | nil => rfl
  | cons kv rest ih =>
    obtain ⟨k₂, v⟩ := kv
    by_cases h : k₂ = k <;> simp [updateAt, h, ih]

theorem mem_updateAt {α : Type} (d : List (String × α)) (k : String) (f : α → α)
    (kv : String × α) (h : kv ∈ updateAt d k f) :
    ∃ kv₀ ∈ d, kv.1 = kv₀.1 ∧ (kv.2 = kv₀.2 ∨ kv.2 = f kv₀.2) := by
  induction d with
  | nil => simp [updateAt] at h
  | cons kv₂ rest ih =>
    obtain ⟨k₂, v⟩ := kv₂
    by_cases h₂ : k₂ = k
    · subst h₂
      simp only [updateAt, if_pos rfl] at h
      rcases List.mem_cons.mp h with h₃ | h₃
      · exact ⟨(k₂, v), by simp, by simp [h₃], Or.inr (by simp [h₃])⟩
      · exact ⟨kv, by simp [h₃], rfl, Or.inl rfl⟩
    · simp only [updateAt, if_neg h₂] at h
      rcases List.mem_cons.mp h with h₃ | h₃
      · exact ⟨(k₂, v), by simp, by simp [h₃], Or.inl (by simp [h₃])⟩
      · obtain ⟨kv₀, hm, he, hv⟩ := ih h₃
        exact ⟨kv₀, by simp [hm], he, hv⟩

theorem updateAt_lookup {α : Type} (d : List (String × α)) (k : String) (f : α → α) :
    pyLookup (updateAt d k f) k = (pyLookup d k).map f := by
  induction d with
  | nil => simp [updateAt, pyLookup]
  | cons kv rest ih =>
    obtain ⟨k₂, v⟩ := kv
    by_cases h : k₂ = k <;> simp [updateAt, pyLookup, h, ih]

theorem updateAt_not_mem {α : Type} (d : List (String × α)) (k : String) (f : α → α)
    (h : ¬ k ∈ pyKeys d) : updateAt d k f = d := by
  induction d with
  | nil => rfl
  | cons kv rest ih =>
    obtain ⟨k₂, v⟩ := kv
    have h₁ : ¬ k₂ = k := fun he => h (by simp [he])
    have h₂ : ¬ k ∈ pyKeys rest := fun hm => h (by simp [hm])
    simp [updateAt, h₁, ih h₂]

theorem pyLookup_mem {α : Type} (d : List (String × α)) (k : String) (v : α)
    (h : pyLookup d k = some v) : (k, v) ∈ d := by
  induction d with
  | nil => simp [pyLookup] at h
  | cons kv rest ih =>
    obtain ⟨k₂, v₂⟩ := kv
    by_cases h₂ : k₂ = k
    · subst h₂
      simp [pyLookup] at h
      simp [h]
    · simp [pyLookup, h₂] at h
      simp [ih h]

theorem mem_lookup_of_nodup {α : Type} (d : List (String × α)) (k : String) (v : α)
    (hn : (pyKeys d).Nodup) (h : (k, v) ∈ d) : pyLookup d k = some v := by
  induction d with
  | nil => simp at h
  | cons kv rest ih =>
    obtain ⟨k₂, v₂⟩ := kv
    simp at hn
    rcases List.mem_cons.mp h with h₃ | h₃
    · obtain ⟨he₁, he₂⟩ := Prod.mk.injEq .. ▸ h₃
      simp [pyLookup, he₁.symm, he₂]
    · have hk : ¬ k₂ = k := by
        intro he
        subst he
        exact hn.1 (by simpa [pyKeys] using List.mem_map_of_mem Prod.fst h₃)
      simp [pyLookup, hk, ih hn.2 h₃]

theorem pyLookup_append {α : Type} (l m : List (String × α)) (k : String) :
    pyLookup (l ++ m) k =
      match pyLookup l k with
      | some v => some v
      | none => pyLookup m k := by
  induction l with
  | nil => simp [pyLookup]
  | cons kv rest ih =>
    obtain ⟨k₂, v₂⟩ := kv
    by_cases h : k₂ = k <;> simp [pyLookup, h, ih]

theorem updateAt_lookup_other {α : Type} (d : List (String × α)) (k k' : String)
    (f : α → α) (h : k' ≠ k) : pyLookup (updateAt d k f) k' = pyLookup d k' := by
  induction d with
  | nil => simp [updateAt]
  | cons kv rest ih =>
    obtain ⟨k₂, v⟩ := kv
    by_cases h₂ : k₂ = k
    · subst h₂
      simp [updateAt, pyLookup, Ne.symm h]
    · by_cases h₃ : k₂ = k' <;> simp [updateAt, pyLookup, h₂, h₃, h, ih]

theorem pyInsert_not_mem_append {α : Type} (d : List (String × α)) (k : String) (v : α)
    (h : ¬ k ∈ pyKeys d) : pyInsert d k v = d ++ [(k, v)] := by
  induction d with
  | nil => simp [pyInsert]
  | cons kv rest ih =>
    obtain ⟨k₂, v₂⟩ := kv
    have h₁ : ¬ k₂ = k := fun he => h (by simp [he])
    have h₂ : ¬ k ∈ pyKeys rest := fun hm => h (by simp [hm])
    simp [pyInsert, h₁, ih h₂]

theorem pyKeys_pyInsert_nodup {α : Type} (d : List (String × α)) (k : String) (v : α)
    (h : (pyKeys d).Nodup) : (pyKeys (pyInsert d k v)).Nodup := by
  by_cases hm : k ∈ pyKeys d
  · rw [pyKeys_pyInsert_mem d k v hm]; exact h
  · rw [pyKeys_pyInsert_not_mem d k v hm]
    simp [List.nodup_append, h, hm]

theorem pyKeys_pyInsert_subset {α : Type} (d : List (String × α)) (k : String) (v : α) :
    ∀ k', k' ∈ pyKeys (pyInsert d k v) → k' ∈ pyKeys d ∨ k' = k := by
  intro k' h
  by_cases hm : k ∈ pyKeys d
  · rw [pyKeys_pyInsert_mem d k v hm] at h; exact Or.inl h
  · rw [pyKeys_pyInsert_not_mem d k v hm] at h
    rcases List.mem_append.mp h with h | h
    · exact Or.inl h
    · exact Or.inr (by simpa using h)

/-- Folding Python dict assignments over fresh, pairwise-distinct keys appends
the pairs in order. -/
theorem foldl_pyInsert_fresh {α : Type} (d acc : List (String × α))
    (hn : (pyKeys d).Nodup) (hdisj : ∀ k ∈ pyKeys d, ¬ k ∈ pyKeys acc) :
    d.foldl (fun a kv => pyInsert a kv.1 kv.2) acc = acc ++ d := by
  induction d generalizing acc with
  | nil => simp
  | cons kv rest ih =>
    obtain ⟨k₁, v₁⟩ := kv
    simp only [pyKeys_cons, List.nodup_cons] at hn
    simp only [List.foldl_cons]
    rw [pyInsert_not_mem_append acc k₁ v₁ (hdisj k₁ (by simp))]
    rw [ih (acc ++ [(k₁, v₁)]) hn.2]
    · simp
    · intro k hk
      simp only [pyKeys_append, pyKeys_cons, pyKeys_nil, List.mem_append,
        List.mem_singleton]
      push_neg
      exact ⟨hdisj k (by simp [hk]), fun he => hn.1 (he ▸ hk)⟩

/-- Keys accumulated by folding Python dict assignments stay within the initial
keys plus the inserted ones. -/
theorem foldl_pyInsert_keys_subset {α : Type} (d acc : List (String × α)) :
    ∀ k, k ∈ pyKeys (d.foldl (fun a kv => pyInsert a kv.1 kv.2) acc) →
      k ∈ pyKeys acc ∨ k ∈ pyKeys d := by
  induction d generalizing acc with
  | nil => simp
  | cons kv rest ih =>
    obtain ⟨k₁, v₁⟩ := kv
    intro k h
    simp only [List.foldl_cons] at h
    rcases ih (pyInsert acc k₁ v₁) k h with h₂ | h₂
    · rcases pyKeys_pyInsert_subset acc k₁ v₁ k h₂ with h₃ | h₃
      · exact Or.inl h₃
      · exact Or.inr (by simp [h₃])
    · exact Or.inr (by simp [h₂])

/-! ## String comparison (Python compares strings by code point, lexicographically) -/

/-- Lexicographic strict comparison of char lists by code point. -/
def ltAux : List Char → List Char → Bool
  | [], [] => false
  | [], _ :: _ => true
  | _ :: _, [] => false
  | a :: as, b :: bs =>
    if a.toNat < b.toNat then true
    else if b.toNat < a.toNat then false
    else ltAux as bs

/-- Lexicographic non-strict comparison of char lists by code point. -/
def leAux : List Char → List Char → Bool
  | [], _ => true
  | _ :: _, [] => false
  | a :: as, b :: bs =>
    if a.toNat < b.toNat then true
    else if b.toNat < a.toNat then false
    else leAux as bs

/-- Python string strict order (code-point lexicographic). -/
def strLtb (a b : String) : Bool := ltAux a.data b.data

/-- Python string non-strict order (code-point lexicographic). -/
def strLeb (a b : String) : Bool := leAux a.data b.data

theorem leAux_total (as bs : List Char) : leAux as bs = true ∨ leAux bs as = true := by
  induction as generalizing bs with
  | nil => left; simp [leAux]
  | cons a as ih =>
    cases bs with
    | nil => right; simp [leAux]
    | cons b bs =>
      rcases Nat.lt_trichotomy a.toNat b.toNat with h | h | h
      · left; simp [leAux, h]
      · rcases ih bs with h₂ | h₂
        · left; simp [leAux, h, h₂]
        · right; simp [leAux, h.symm, h₂]
      · right; simp [leAux, h]

theorem leAux_trans (as bs cs : List Char) (h₁ : leAux as bs = true)
    (h₂ : leAux bs cs = true) : leAux as cs = true := by
  induction as generalizing bs cs with
  | nil => simp [leAux]
  | cons a as ih =>
    cases bs with
    | nil => simp [leAux] at h₁
    | cons b bs =>
      cases cs with
      | nil => simp [leAux] at h₂
      | cons c cs =>
        simp only [leAux] at h₁ h₂ ⊢
        rcases Nat.lt_trichotomy a.toNat b.toNat with hab | hab | hab
        · rcases Nat.lt_trichotomy b.toNat c.toNat with hbc | hbc | hbc
          · have : a.toNat < c.toNat := Nat.lt_trans hab hbc
            simp [this]
          · simp [hbc ▸ hab]
          · simp [hbc, Nat.lt_asymm hbc] at h₂
        · rcases Nat.lt_trichotomy b.toNat c.toNat with hbc | hbc | hbc
          · simp [hab ▸ hbc]
          · have hac : a.toNat = c.toNat := hab.trans hbc
            simp only [hab, Nat.lt_irrefl, if_false] at h₁
            simp only [hbc, Nat.lt_irrefl, if_false] at h₂
            simp [hac, Nat.lt_irrefl, ih bs cs h₁ h₂]
          · simp [hbc, Nat.lt_asymm hbc] at h₂
        · simp [hab, Nat.lt_asymm hab] at h₁

theorem leAux_antisymm (as bs : List Char) (h₁ : leAux as bs = true)
    (h₂ : leAux bs as = true) : as = bs := by
  induction as generalizing bs with
  | nil =>
    cases bs with
    | nil => rfl
    | cons b bs => simp [leAux] at h₂
  | cons a as ih =>
    cases bs with
    | nil => simp [leAux] at h₁
    | cons b bs =>
      rcases Nat.lt_trichotomy a.toNat b.toNat with hab | hab | hab
      · simp [leAux, hab, Nat.lt_asymm hab] at h₂
      · have : a = b := Char.eq_of_val_eq (by
          apply UInt32.eq_of_val_eq
          exact Fin.ext hab)
        subst this
        simp only [leAux, Nat.lt_irrefl, if_false] at h₁ h₂
        rw [ih bs h₁ h₂]
      · simp [leAux, hab, Nat.lt_asymm hab] at h₁

theorem ltAux_of_leAux_ne (as bs : List Char) (h₁ : leAux as bs = true)
    (h₂ : as ≠ bs) : ltAux as bs = true := by
  induction as generalizing bs with
  | nil =>
    cases bs with
    | nil => exact absurd rfl h₂
    | cons b bs => simp [ltAux]
  | cons a as ih =>
    cases bs with
    | nil => simp [leAux] at h₁
    | cons b bs =>
      rcases Nat.lt_trichotomy a.toNat b.toNat with hab | hab | hab
      · simp [ltAux, hab]
      · have he : a = b := Char.eq_of_val_eq (by
          apply UInt32.eq_of_val_eq
          exact Fin.ext hab)
        subst he
        simp only [leAux, Nat.lt_irrefl, if_false] at h₁
        have : as ≠ bs := fun h => h₂ (by rw [h])
        simp only [ltAux, Nat.lt_irrefl, if_false]
        exact ih bs h₁ this
      · simp [leAux, hab, Nat.lt_asymm hab] at h₁

theorem strLtb_of_strLeb_ne (a b : String) (h₁ : strLeb a b = true) (h₂ : a ≠ b) :
    strLtb a b = true :=
  ltAux_of_leAux_ne _ _ h₁ (fun h => h₂ (by
    cases a; cases b; exact congrArg String.mk h))

/-! ## Values and rounding (api.py)

`record.get_value()` yields a float/int, a string, or None.  Python's
`round(value, 3)` is modelled over exact rationals with round-half-to-even
(IEEE-754 binary-double artifacts are outside the embedding). -/

inductive Value where
  | num (q : ℚ)
  | str (s : String)
  | null
deriving DecidableEq

/-- Round-half-to-even to an integer. -/
def bround (q : ℚ) : ℤ :=
  let f := ⌊q⌋
  if q - f < 1/2 then f
  else if 1/2 < q - f then f + 1
  else if f % 2 = 0 then f else f + 1

/-- Python's `round(q, 3)`. -/
def round3 (q : ℚ) : ℚ := (bround (q * 1000) : ℚ) / 1000

/-- The body `if isinstance(value, (float, int)): value = round(value, 3)`. -/
def roundValue : Value → Value
  | .num q => .num (round3 q)
  | v => v

/-! ## The reshaping pipeline (api.py, `async_get_forecast` / `async_get_optimal_actions`)

A backend row carries a timestamp, a field identifier and a value.  The
conversion `record.get_time().astimezone(tz).isoformat()` is abstracted as a
function `loc : τ → String` from instants to local ISO-8601 strings; claims
quantify over it, which covers the quantification over timezones. -/

structure Row (τ : Type) where
  time : τ
  fieldId : String
  value : Value

/-- One forecast record, as a Python dict. -/
abbrev PyRec := List (String × Value)

/-- The field → short key table of `async_get_forecast` (the if/elif chain). -/
def forecastShortKey (f : String) : Option String :=
  if f = "cs/schedule/controller" then some "ctr"
  else if f = "cs/schedule/target_soc" then some "ts"
  else if f = "cs/forecasts/consumption_forecast_kwh" then some "cf"
  else if f = "cs/forecasts/production_forecast_kwh" then some "pf"
  else if f = "cs/forecasts/soc_forecast" then some "sf"
  else if f = "cs/prices/buy_total_price_per_kwh" then some "bp"
  else if f = "cs/prices/sell_price_per_kwh" then some "sp"
  else none

/-- The accumulator record `forecast_data[hour_key]` is initialised to. -/
def forecastInit : PyRec :=
  [("ctr", .null), ("ts", .null), ("cf", .null), ("pf", .null),
   ("sf", .null), ("bp", .null), ("sp", .null)]

/-- Python's `s.split(sep)` for a single-character separator, over char lists.
`"".split("/") == [""]`, and a trailing separator yields a trailing empty
segment, exactly as in Python. -/
def splitOnChar (sep : Char) : List Char → List (List Char)
  | [] => [[]]
  | c :: rest =>
    let r := splitOnChar sep rest
    if c = sep then [] :: r
    else
      match r with
      | [] => [[c]]
      | s :: ss => (c :: s) :: ss

/-- `field.split("/")[-1]`: the last path segment of a field identifier. -/
def lastSegment (f : String) : String :=
  String.mk ((splitOnChar '/' f.data).getLastD [])

/-- `async_get_optimal_actions` uses `field.split("/")[-1]` as the short key,
for every field. -/
def actionShortKey (f : String) : Option String :=
  some (lastSegment f)

/-- The accumulator record `actions[hour_key]` is initialised to. -/
def actionsInit : PyRec :=
  [("bc", .null), ("bg", .null), ("gb", .null), ("gc", .null),
   ("pb", .null), ("pc", .null), ("pg", .null)]

/-- The recognized forecast fields (the 7 fields enumerated in `FORECAST_QUERY`
and in the if/elif chain). -/
def forecastFields : List String :=
  ["cs/prices/buy_total_price_per_kwh", "cs/forecasts/consumption_forecast_kwh",
   "cs/forecasts/production_forecast_kwh", "cs/forecasts/soc_forecast",
   "cs/schedule/controller", "cs/schedule/target_soc", "cs/prices/sell_price_per_kwh"]

/-- The recognized optimal-action fields (enumerated in `OPTIMAL_ACTIONS_QUERY`). -/
def actionFields : List String :=
  ["cs/opt_actions/bc", "cs/opt_actions/bg", "cs/opt_actions/gb",
   "cs/opt_actions/gc", "cs/opt_actions/pb", "cs/opt_actions/pc", "cs/opt_actions/pg"]

/-- The loop body shared by both reshaping loops: ensure an accumulator record
exists for the row's local ISO timestamp, then store the (rounded) value under
the short key, if any. -/
def reshapeStep {τ : Type} (skey : String → Option String) (init : PyRec)
    (loc : τ → String) (acc : List (String × PyRec)) (r : Row τ) :
    List (String × PyRec) :=
  let hk := loc r.time
  let acc₂ := if containsKey acc hk then acc else acc ++ [(hk, init)]
  match skey r.fieldId with
  | some sk => updateAt acc₂ hk (fun d => pyInsert d sk (roundValue r.value))
  | none => acc₂

/-- Python's `sorted` on the dict's `(key, record)` items; keys are distinct so
only the string keys are compared (code-point lexicographic). -/
def sortPairs (l : List (String × PyRec)) : List (String × PyRec) :=
  List.insertionSort (fun a b => strLeb a.1 b.1 = true) l

/-- The comprehension entry `{"dt": hour_key, **data}`. -/
def pyMergeDt (k : String) (d : PyRec) : PyRec :=
  d.foldl (fun acc kv => pyInsert acc kv.1 kv.2) [("dt", Value.str k)]

/-- The whole reshaping: fold all rows into the per-timestamp dict, sort its
items by key, and emit each as `{"dt": hour_key, **data}`. -/
def reshapeCore {τ : Type} (skey : String → Option String) (init : PyRec)
    (loc : τ → String) (rows : List (Row τ)) : List PyRec :=
  (sortPairs (rows.foldl (reshapeStep skey init loc) [])).map
    (fun kv => pyMergeDt kv.1 kv.2)

/-- The reshaping performed by `async_get_forecast`. -/
def forecastReshape {τ : Type} (loc : τ → String) (rows : List (Row τ)) : List PyRec :=
  reshapeCore forecastShortKey forecastInit loc rows

/-- The reshaping performed by `async_get_optimal_actions`. -/
def actionsReshape {τ : Type} (loc : τ → String) (rows : List (Row τ)) : List PyRec :=
  reshapeCore actionShortKey actionsInit loc rows

/-- The local ISO timestamps of a rowset, in row order. -/
def locKeys {τ : Type} (loc : τ → String) (rows : List (Row τ)) : List String :=
  rows.map (fun r => loc r.time)

/-- The `dt` entry of an emitted record. -/
def recDt (rec : PyRec) : String :=
  match pyLookup rec "dt" with
  | some (.str s) => s
  | _ => ""

/-! ### Invariants of the reshaping fold -/

theorem pyKeys_reshapeStep {τ : Type} (skey : String → Option String) (init : PyRec)
    (loc : τ → String) (acc : List (String × PyRec)) (r : Row τ) :
    pyKeys (reshapeStep skey init loc acc r) =
      if containsKey acc (loc r.time) then pyKeys acc
      else pyKeys acc ++ [loc r.time] := by
  unfold reshapeStep
  by_cases h : containsKey acc (loc r.time)
  · cases hs : skey r.fieldId <;> simp [h, hs, pyKeys_updateAt]
  · cases hs : skey r.fieldId <;> simp [h, hs, pyKeys_updateAt]

theorem mem_pyKeys_reshapeStep {τ : Type} (skey : String → Option String)
    (init : PyRec) (loc : τ → String) (acc : List (String × PyRec)) (r : Row τ)
    (k : String) :
    k ∈ pyKeys (reshapeStep skey init loc acc r) ↔
      k ∈ pyKeys acc ∨ k = loc r.time := by
  rw [pyKeys_reshapeStep]
  by_cases h : containsKey acc (loc r.time)
  · simp only [h, if_true]
    constructor
    · exact Or.inl
    · rintro (h₂ | h₂)
      · exact h₂
      · exact h₂ ▸ (containsKey_iff_mem_pyKeys acc (loc r.time)).mp h
  · simp [h]

theorem nodup_pyKeys_reshapeStep {τ : Type} (skey : String → Option String)
    (init : PyRec) (loc : τ → String) (acc : List (String × PyRec)) (r : Row τ)
    (h : (pyKeys acc).Nodup) :
    (pyKeys (reshapeStep skey init loc acc r)).Nodup := by
  rw [pyKeys_reshapeStep]
  by_cases hc : containsKey acc (loc r.time)
  · simpa [hc] using h
  · have : ¬ loc r.time ∈ pyKeys acc := fun hm =>
      hc ((containsKey_iff_mem_pyKeys acc (loc r.time)).mpr hm)
    simp [hc, List.nodup_append, h, this]

theorem nodup_pyKeys_reshapeFold {τ : Type} (skey : String → Option String)
    (init : PyRec) (loc : τ → String) (rows : List (Row τ))
    (acc : List (String × PyRec)) (h : (pyKeys acc).Nodup) :
    (pyKeys (rows.foldl (reshapeStep skey init loc) acc)).Nodup := by
  induction rows generalizing acc with
  | nil => simpa using h
  | cons r rows ih =>
    simp only [List.foldl_cons]
    exact ih _ (nodup_pyKeys_reshapeStep skey init loc acc r h)

theorem mem_pyKeys_reshapeFold {τ : Type} (skey : String → Option String)
    (init : PyRec) (loc : τ → String) (rows : List (Row τ))
    (acc : List (String × PyRec)) (k : String) :
    k ∈ pyKeys (rows.foldl (reshapeStep skey init loc) acc) ↔
      k ∈ pyKeys acc ∨ k ∈ locKeys loc rows := by
  induction rows generalizing acc with
  | nil => simp [locKeys]
  | cons r rows ih =>
    simp only [List.foldl_cons]
    rw [ih]
    rw [mem_pyKeys_reshapeStep]
    simp [locKeys]
    tauto

/-- Every record accumulated by the fold keeps exactly the initial key list,
provided every applied short key already belongs to it. -/
theorem innerKeys_reshapeFold {τ : Type} (skey : String → Option String)
    (init : PyRec) (loc : τ → String) (rows : List (Row τ))
    (acc : List (String × PyRec))
    (hsk : ∀ r ∈ rows, ∀ sk, skey r.fieldId = some sk → sk ∈ pyKeys init)
    (hacc : ∀ kd ∈ acc, pyKeys kd.2 = pyKeys init) :
    ∀ kd ∈ rows.foldl (reshapeStep skey init loc) acc, pyKeys kd.2 = pyKeys init := by
  induction rows generalizing acc with
  | nil => simpa using hacc
  | cons r rows ih =>
    simp only [List.foldl_cons]
    apply ih _ (fun r₂ hr₂ => hsk r₂ (by simp [hr₂]))
    intro kd hkd
    unfold reshapeStep at hkd
    have hacc₂ : ∀ kd ∈ (if containsKey acc (loc r.time) then acc
        else acc ++ [(loc r.time, init)]), pyKeys kd.2 = pyKeys init := by
      by_cases hc : containsKey acc (loc r.time)
      · simpa [hc] using hacc
      · simp only [hc, if_false]
        intro kd hkd
        rcases List.mem_append.mp hkd with h₂ | h₂
        · exact hacc kd h₂
        · simp at h₂
          simp [h₂]
    cases hs : skey r.fieldId with
    | none =>
      simp only [hs] at hkd
      exact hacc₂ kd hkd
    | some sk =>
      simp only [hs] at hkd
      obtain ⟨kd₀, hm, _, hv⟩ := mem_updateAt _ _ _ kd hkd
      have hk₀ : pyKeys kd₀.2 = pyKeys init := hacc₂ kd₀ hm
      rcases hv with hv | hv
      · rw [hv]; exact hk₀
      · rw [hv]
        rw [pyKeys_pyInsert_mem _ _ _ (hk₀ ▸ hsk r (by simp) sk hs)]
        exact hk₀

/-- General bound on accumulated record keys, relative to any predicate `P`
covering the applied short keys (used for the optimal-actions reshaping, whose
short keys are not restricted). -/
theorem innerKeys_reshapeFold_subset {τ : Type} (skey : String → Option String)
    (init : PyRec) (loc : τ → String) (P : String → Prop) (rows : List (Row τ))
    (acc : List (String × PyRec))
    (hsk : ∀ r ∈ rows, ∀ sk, skey r.fieldId = some sk → P sk)
    (hacc : ∀ kd ∈ acc, ∀ k ∈ pyKeys kd.2, k ∈ pyKeys init ∨ P k) :
    ∀ kd ∈ rows.foldl (reshapeStep skey init loc) acc, ∀ k ∈ pyKeys kd.2,
      k ∈ pyKeys init ∨ P k := by
  induction rows generalizing acc with
  | nil => simpa using hacc
  | cons r rows ih =>
    simp only [List.foldl_cons]
    apply ih _ (fun r₂ hr₂ => hsk r₂ (by simp [hr₂]))
    intro kd hkd k hk
    unfold reshapeStep at hkd
    have hacc₂ : ∀ kd ∈ (if containsKey acc (loc r.time) then acc
        else acc ++ [(loc r.time, init)]), ∀ k ∈ pyKeys kd.2,
        k ∈ pyKeys init ∨ P k := by
      by_cases hc : containsKey acc (loc r.time)
      · simpa [hc] using hacc
      · simp only [hc, if_false]
        intro kd hkd k hk
        rcases List.mem_append.mp hkd with h₂ | h₂
        · exact hacc kd h₂ k hk
        · simp at h₂
          rw [h₂] at hk
          exact Or.inl hk
    cases hs : skey r.fieldId with
    | none =>
      simp only [hs] at hkd
      exact hacc₂ kd hkd k hk
    | some sk =>
      simp only [hs] at hkd
      obtain ⟨kd₀, hm, _, hv⟩ := mem_updateAt _ _ _ kd hkd
      rcases hv with hv | hv
      · exact hacc₂ kd₀ hm k (hv ▸ hk)
      · rw [hv] at hk
        rcases pyKeys_pyInsert_subset kd₀.2 sk (roundValue r.value) k hk with h | h
        · exact hacc₂ kd₀ hm k h
        · exact h ▸ Or.inr (hsk r (by simp) sk hs)

/-- Every accumulated record has duplicate-free keys (they are Python dicts). -/
theorem innerNodup_reshapeFold {τ : Type} (skey : String → Option String)
    (init : PyRec) (loc : τ → String) (rows : List (Row τ))
    (acc : List (String × PyRec)) (hinit : (pyKeys init).Nodup)
    (hacc : ∀ kd ∈ acc, (pyKeys kd.2).Nodup) :
    ∀ kd ∈ rows.foldl (reshapeStep skey init loc) acc, (pyKeys kd.2).Nodup := by
  induction rows generalizing acc with
  | nil => simpa using hacc
  | cons r rows ih =>
    simp only [List.foldl_cons]
    apply ih
    intro kd hkd
    unfold reshapeStep at hkd
    have hacc₂ : ∀ kd ∈ (if containsKey acc (loc r.time) then acc
        else acc ++ [(loc r.time, init)]), (pyKeys kd.2).Nodup := by
      by_cases hc : containsKey acc (loc r.time)
      · simpa [hc] using hacc
      · simp only [hc, if_false]
        intro kd hkd
        rcases List.mem_append.mp hkd with h₂ | h₂
        · exact hacc kd h₂
        · simp at h₂
          rw [h₂]
          exact hinit
    cases hs : skey r.fieldId with
    | none =>
      simp only [hs] at hkd
      exact hacc₂ kd hkd
    | some sk =>
      simp only [hs] at hkd
      obtain ⟨kd₀, hm, _, hv⟩ := mem_updateAt _ _ _ kd hkd
      rcases hv with hv | hv
      · exact hv ▸ hacc₂ kd₀ hm
      · exact hv ▸ pyKeys_pyInsert_nodup _ _ _ (hacc₂ kd₀ hm)

/-- A timestamp key all of whose rows carry unrecognized fields keeps the
pristine initial record through the fold. -/
theorem untouched_reshapeFold {τ : Type} (skey : String → Option String)
    (init : PyRec) (loc : τ → String) (rows : List (Row τ))
    (acc : List (String × PyRec)) (k₀ : String)
    (hrows : ∀ r ∈ rows, loc r.time = k₀ → skey r.fieldId = none)
    (hacc : pyLookup acc k₀ = none ∨ pyLookup acc k₀ = some init) :
    pyLookup (rows.foldl (reshapeStep skey init loc) acc) k₀ = none ∨
      pyLookup (rows.foldl (reshapeStep skey init loc) acc) k₀ = some init := by
  induction rows generalizing acc with
  | nil => simpa using hacc
  | cons r rows ih =>
    simp only [List.foldl_cons]
    apply ih _ (fun r₂ hr₂ => hrows r₂ (by simp [hr₂]))
    unfold reshapeStep
    by_cases he : loc r.time = k₀
    · -- the row belongs to the untouched timestamp: its field is unrecognized
      rw [hrows r (by simp) he]
      by_cases hc : containsKey acc (loc r.time)
      · simpa [hc] using hacc
      · simp only [hc, Bool.false_eq_true, if_false]
        right
        rw [pyLookup_append]
        rcases hacc with h | h
        · rw [h]
          simp [pyLookup, he]
        · rw [h]
    · -- a different timestamp: the entry at `k₀` is not touched
      have hne : k₀ ≠ loc r.time := fun h => he h.symm
      have hbase : pyLookup (if containsKey acc (loc r.time) then acc
          else acc ++ [(loc r.time, init)]) k₀ = pyLookup acc k₀ := by
        by_cases hc : containsKey acc (loc r.time)
        · simp [hc]
        · simp only [hc, Bool.false_eq_true, if_false]
          rw [pyLookup_append]
          cases hl : pyLookup acc k₀ with
          | none => simp [pyLookup, he]
          | some v => simp
      cases hs : skey r.fieldId with
      | none => rw [hbase]; exact hacc
      | some sk =>
        rw [updateAt_lookup_other _ _ _ _ hne, hbase]
        exact hacc

/-! ### Sorting and record emission -/

theorem sortPairs_perm (l : List (String × PyRec)) : (sortPairs l).Perm l :=
  List.perm_insertionSort _ l

theorem sortPairs_sorted (l : List (String × PyRec)) :
    List.Pairwise (fun a b => strLeb a.1 b.1 = true) (sortPairs l) := by
  haveI : IsTotal (String × PyRec) (fun a b => strLeb a.1 b.1 = true) :=
    ⟨fun a b => leAux_total a.1.data b.1.data⟩
  haveI : IsTrans (String × PyRec) (fun a b => strLeb a.1 b.1 = true) :=
    ⟨fun a b c hab hbc => leAux_trans a.1.data b.1.data c.1.data hab hbc⟩
  exact List.sorted_insertionSort _ l

theorem sortPairs_strict (l : List (String × PyRec)) (h : (pyKeys l).Nodup) :
    List.Pairwise (fun a b => strLtb a.1 b.1 = true) (sortPairs l) := by
  have hperm : ((sortPairs l).map Prod.fst).Perm (l.map Prod.fst) :=
    (sortPairs_perm l).map Prod.fst
  have hnd : ((sortPairs l).map Prod.fst).Nodup := hperm.nodup_iff.mpr h
  have hne : List.Pairwise (fun a b : String × PyRec => a.1 ≠ b.1) (sortPairs l) :=
    (List.pairwise_map).mp hnd
  exact ((sortPairs_sorted l).and hne).imp
    (fun h₂ => strLtb_of_strLeb_ne _ _ h₂.1 h₂.2)

theorem pyMergeDt_eq (k : String) (d : PyRec) (hn : (pyKeys d).Nodup)
    (hdt : ¬ "dt" ∈ pyKeys d) : pyMergeDt k d = ("dt", Value.str k) :: d := by
  unfold pyMergeDt
  rw [foldl_pyInsert_fresh d [("dt", Value.str k)] hn]
  · rfl
  · intro k₂ hk₂
    simp only [pyKeys_cons, pyKeys_nil, List.mem_singleton]
    intro he
    exact hdt (he ▸ hk₂)

theorem recDt_cons (k : String) (d : PyRec) :
    recDt (("dt", Value.str k) :: d) = k := by
  simp [recDt, pyLookup]

/-! ### Master theorem about `reshapeCore` -/

/-- Complete characterisation of the reshaping whenever every applied short
key belongs to the record's initial key set: one record per distinct local
timestamp, each record a pristine-key record prefixed with its `dt` entry,
sorted strictly ascending by the `dt` string. -/
theorem reshapeCore_spec {τ : Type} (skey : String → Option String) (init : PyRec)
    (loc : τ → String) (rows : List (Row τ))
    (hinit : (pyKeys init).Nodup) (hdt : ¬ "dt" ∈ pyKeys init)
    (hsk : ∀ r ∈ rows, ∀ sk, skey r.fieldId = some sk → sk ∈ pyKeys init) :
    (reshapeCore skey init loc rows).length = ((locKeys loc rows).dedup).length ∧
    (∀ rec ∈ reshapeCore skey init loc rows, ∃ k ∈ locKeys loc rows, ∃ d : PyRec,
      pyKeys d = pyKeys init ∧ rec = ("dt", Value.str k) :: d) ∧
    List.Pairwise (fun a b => strLtb (recDt a) (recDt b) = true)
      (reshapeCore skey init loc rows) := by
  set outer := rows.foldl (reshapeStep skey init loc) [] with houter
  have keysN : (pyKeys outer).Nodup :=
    nodup_pyKeys_reshapeFold skey init loc rows [] (by simp)
  have keysM : ∀ k, k ∈ pyKeys outer ↔ k ∈ locKeys loc rows := by
    intro k
    rw [houter, mem_pyKeys_reshapeFold]
    simp
  have inner : ∀ kd ∈ outer, pyKeys kd.2 = pyKeys init :=
    innerKeys_reshapeFold skey init loc rows [] hsk (by simp)
  have hmerge : ∀ kv ∈ sortPairs outer,
      pyMergeDt kv.1 kv.2 = ("dt", Value.str kv.1) :: kv.2 := by
    intro kv hkv
    have hkv₂ : kv ∈ outer := (sortPairs_perm outer).mem_iff.mp hkv
    have hkeys := inner kv hkv₂
    exact pyMergeDt_eq kv.1 kv.2 (hkeys ▸ hinit) (hkeys ▸ hdt)
  refine ⟨?_, ?_, ?_⟩
  · -- length = number of distinct local timestamps
    have h₁ : (reshapeCore skey init loc rows).length = outer.length := by
      rw [reshapeCore, List.length_map, (sortPairs_perm outer).length_eq]
    have h₂ : outer.length = (pyKeys outer).length := by
      simp [pyKeys]
    have h₃ : (pyKeys outer).toFinset = ((locKeys loc rows).dedup).toFinset := by
      apply Finset.ext
      intro a
      simp only [List.mem_toFinset, List.mem_dedup]
      exact keysM a
    have h₄ : (pyKeys outer).length = ((locKeys loc rows).dedup).length := by
      rw [← List.toFinset_card_of_nodup keysN,
        ← List.toFinset_card_of_nodup (List.nodup_dedup _), h₃]
    rw [h₁, h₂, h₄]
  · -- shape of every record
    intro rec hrec
    rw [reshapeCore] at hrec
    obtain ⟨kv, hkv, hr⟩ := List.mem_map.mp hrec
    have hkv₂ : kv ∈ outer := (sortPairs_perm outer).mem_iff.mp hkv
    refine ⟨kv.1, ?_, kv.2, inner kv hkv₂, ?_⟩
    · exact (keysM kv.1).mp (List.mem_map_of_mem Prod.fst hkv₂)
    · rw [← hr, hmerge kv hkv]
  · -- strict ascending order of `dt`
    rw [reshapeCore]
    apply (List.pairwise_map).mpr
    apply List.Pairwise.imp_of_mem ?_ (sortPairs_strict outer keysN)
    intro a b ha hb hlt
    rwa [hmerge a ha, hmerge b hb, recDt_cons, recDt_cons]

/-! ## Backend errors and the four query operations (api.py)

`ApiException` carries `getattr(err, "status", None)`.  Every query operation
wraps its backend call in the same `except ApiException` handler: status 401
raises `SolarCubeApiAuthError`, any other status (after logging 400s) raises
`SolarCubeApiRequestError`.  The backend call itself is host/library code, so
each operation takes its outcome — either a raised `ApiException` or the raw
result — as input. -/

structure ApiException where
  status : Option Int
deriving DecidableEq

inductive SolarCubeError where
  | authError
  | requestError
deriving DecidableEq

/-- The shared `except ApiException as err:` handler body. -/
def mapApiError (e : ApiException) : SolarCubeError :=
  if e.status = some 401 then .authError else .requestError

/-- `async_validate`: only the error mapping is observable. -/
def async_validate (backend : Except ApiException Unit) : Except SolarCubeError Unit :=
  match backend with
  | .error e => .error (mapApiError e)
  | .ok _ => .ok ()

/-- `async_query_last`: returns the first record's value across the returned
tables, or `None` when no rows matched. -/
def async_query_last (backend : Except ApiException (List (List Value))) :
    Except SolarCubeError (Option Value) :=
  match backend with
  | .error e => .error (mapApiError e)
  | .ok tables => .ok tables.flatten.head?

/-- `async_get_forecast`: error mapping around the query, then reshaping. -/
def async_get_forecast {τ : Type} (loc : τ → String)
    (backend : Except ApiException (List (Row τ))) : Except SolarCubeError (List PyRec) :=
  match backend with
  | .error e => .error (mapApiError e)
  | .ok rows => .ok (forecastReshape loc rows)

/-- `async_get_optimal_actions`: error mapping around the query, then
reshaping. -/
def async_get_optimal_actions {τ : Type} (loc : τ → String)
    (backend : Except ApiException (List (Row τ))) : Except SolarCubeError (List PyRec) :=
  match backend with
  | .error e => .error (mapApiError e)
  | .ok rows => .ok (actionsReshape loc rows)

/-! ## Supporting lemmas for the reshape claims -/

theorem pyLookup_eq_none_iff {α : Type} (d : List (String × α)) (k : String) :
    pyLookup d k = none ↔ ¬ k ∈ pyKeys d := by
  induction d with
  | nil => simp [pyLookup]
  | cons kv rest ih =>
    obtain ⟨k₂, v⟩ := kv
    by_cases h : k₂ = k
    · simp [pyLookup, h, ih]
    · simp only [pyLookup, h, if_false, ih, pyKeys_cons, List.mem_cons]
      constructor
      · rintro h₂ (h₃ | h₃)
        · exact h (h₃.symm)
        · exact h₂ h₃
      · intro h₂ h₃
        exact h₂ (Or.inr h₃)

theorem forecastShortKey_mem (f sk : String) (h : forecastShortKey f = some sk) :
    sk ∈ pyKeys forecastInit := by
  unfold forecastShortKey at h
  split_ifs at h <;> simp_all [forecastInit, pyKeys]

theorem actionShortKey_mem_of_recognized (f sk : String) (hf : f ∈ actionFields)
    (h : actionShortKey f = some sk) : sk ∈ pyKeys actionsInit := by
  simp [actionFields] at hf
  rcases hf with rfl | rfl | rfl | rfl | rfl | rfl | rfl <;>
    simp only [show ∀ g : String, actionShortKey g = some (lastSegment g) from
      fun g => rfl, Option.some.injEq] at h <;>
    rw [← h] <;> decide

theorem pyKeys_pyMergeDt_subset (k : String) (d : PyRec) :
    ∀ k₂ ∈ pyKeys (pyMergeDt k d), k₂ = "dt" ∨ k₂ ∈ pyKeys d := by
  intro k₂ h
  rcases foldl_pyInsert_keys_subset d [("dt", Value.str k)] k₂ h with h | h
  · left; simpa using h
  · right; exact h

/-- The conclusion of claim C1 for one reshaping operation: one record per
distinct local timestamp, every short key present in every record, a `dt`
entry holding a local timestamp string, output sorted ascending by `dt`. -/
def reshapeOutputOK (out : List PyRec) (shortKeys : List String)
    (locs : List String) : Prop :=
  out.length = locs.dedup.length ∧
  (∀ rec ∈ out, (∀ sk ∈ shortKeys, containsKey rec sk = true) ∧
    ∃ k ∈ locs, pyLookup rec "dt" = some (Value.str k)) ∧
  List.Pairwise (fun a b => strLtb (recDt a) (recDt b) = true) out

theorem reshapeOutputOK_of_spec {τ : Type} (skey : String → Option String)
    (init : PyRec) (loc : τ → String) (rows : List (Row τ))
    (hinit : (pyKeys init).Nodup) (hdt : ¬ "dt" ∈ pyKeys init)
    (hsk : ∀ r ∈ rows, ∀ sk, skey r.fieldId = some sk → sk ∈ pyKeys init) :
    reshapeOutputOK (reshapeCore skey init loc rows) (pyKeys init)
      (locKeys loc rows) := by
  obtain ⟨hlen, hrec, hsort⟩ := reshapeCore_spec skey init loc rows hinit hdt hsk
  refine ⟨hlen, ?_, hsort⟩
  intro rec hm
  obtain ⟨k, hk, d, hkeys, hshape⟩ := hrec rec hm
  constructor
  · intro sk hsk₂
    rw [hshape]
    apply (containsKey_iff_mem_pyKeys _ _).mpr
    simp [hkeys ▸ hsk₂]
  · refine ⟨k, hk, ?_⟩
    rw [hshape]
    simp [pyLookup]

/-! ## Claims C1, C2, C10 (the reshaping operations) -/

/-- Claim C1: for every rowset whose rows have N distinct local timestamps and
whose fields all belong to the recognized set, both reshaping operations
return exactly N records, each containing every recognized short key (possibly
null) plus a `dt` key holding a local ISO timestamp string, sorted ascending
by `dt`. -/
theorem claim_C1 {τ₁ τ₂ : Type} (loc₁ : τ₁ → String) (loc₂ : τ₂ → String)
    (rows₁ : List (Row τ₁)) (rows₂ : List (Row τ₂))
    (h₁ : ∀ r ∈ rows₁, r.fieldId ∈ forecastFields)
    (h₂ : ∀ r ∈ rows₂, r.fieldId ∈ actionFields) :
    reshapeOutputOK (forecastReshape loc₁ rows₁) (pyKeys forecastInit)
      (locKeys loc₁ rows₁) ∧
    reshapeOutputOK (actionsReshape loc₂ rows₂) (pyKeys actionsInit)
      (locKeys loc₂ rows₂) := by
  constructor
  · exact reshapeOutputOK_of_spec forecastShortKey forecastInit loc₁ rows₁
      (by decide) (by decide)
      (fun r _ sk h => forecastShortKey_mem r.fieldId sk h)
  · exact reshapeOutputOK_of_spec actionShortKey actionsInit loc₂ rows₂
      (by decide) (by decide)
      (fun r hr sk h => actionShortKey_mem_of_recognized r.fieldId sk (h₂ r hr) h)

theorem claim_C1_witness :
    (∀ r ∈ [Row.mk "2024-05-01T10:00:00+02:00" "cs/schedule/controller" (Value.num 1)],
      r.fieldId ∈ forecastFields) ∧
    (∀ r ∈ [Row.mk "2024-05-01T10:00:00+02:00" "cs/opt_actions/bc" (Value.num 1)],
      r.fieldId ∈ actionFields) ∧
    (reshapeOutputOK
      (forecastReshape (fun t : String => t)
        [Row.mk "2024-05-01T10:00:00+02:00" "cs/schedule/controller" (Value.num 1)])
      (pyKeys forecastInit)
      (locKeys (fun t : String => t)
        [Row.mk "2024-05-01T10:00:00+02:00" "cs/schedule/controller" (Value.num 1)]) ∧
    reshapeOutputOK
      (actionsReshape (fun t : String => t)
        [Row.mk "2024-05-01T10:00:00+02:00" "cs/opt_actions/bc" (Value.num 1)])
      (pyKeys actionsInit)
      (locKeys (fun t : String => t)
        [Row.mk "2024-05-01T10:00:00+02:00" "cs/opt_actions/bc" (Value.num 1)])) :=
  ⟨by decide, by decide,
    claim_C1 (fun t : String => t) (fun t : String => t) _ _ (by decide) (by decide)⟩

/-- Claim C2, counterexample: in the optimal-actions reshaping a row whose
field identifier is outside the recognized set is not ignored — the last path
segment of its field is added as a key (with the row's value) to the output
record, so a key beyond the fixed short-key set plus `dt` appears. -/
theorem claim_C2_counterexample :
    containsKey ((actionsReshape (fun t : String => t)
      [Row.mk "2024-05-01T10:00:00+02:00" "weird/xyz" Value.null]).headD []) "xyz"
        = true ∧
    pyLookup ((actionsReshape (fun t : String => t)
      [Row.mk "2024-05-01T10:00:00+02:00" "weird/xyz" Value.null]).headD []) "xyz"
        = some Value.null ∧
    ¬ ("xyz" = "dt" ∨ "xyz" ∈ pyKeys actionsInit) := by
  decide

/-- Claim C2, amended: neither reshaping operation errors on a row with an
unrecognized field.  The forecast reshaping silently ignores such rows — no
key beyond its fixed short-key set plus `dt` ever appears in a forecast
record.  The optimal-actions reshaping instead always stores the value under
the last `/`-separated segment of the field identifier, so every key of an
actions record is `dt`, a fixed short key, or the last segment of some row's
field. -/
theorem claim_C2 {τ₁ τ₂ : Type} (loc₁ : τ₁ → String) (loc₂ : τ₂ → String)
    (rows₁ : List (Row τ₁)) (rows₂ : List (Row τ₂)) :
    (∀ rec ∈ forecastReshape loc₁ rows₁, ∀ k ∈ pyKeys rec,
      k = "dt" ∨ k ∈ pyKeys forecastInit) ∧
    (∀ rec ∈ actionsReshape loc₂ rows₂, ∀ k ∈ pyKeys rec,
      k = "dt" ∨ k ∈ pyKeys actionsInit ∨ ∃ r ∈ rows₂, lastSegment r.fieldId = k) := by
  constructor
  · intro rec hm k hk
    obtain ⟨_, hrec, _⟩ := reshapeCore_spec forecastShortKey forecastInit loc₁ rows₁
      (by decide) (by decide) (fun r _ sk h => forecastShortKey_mem r.fieldId sk h)
    obtain ⟨k₀, _, d, hkeys, hshape⟩ := hrec rec hm
    rw [hshape] at hk
    simp only [pyKeys_cons] at hk
    rcases List.mem_cons.mp hk with h | h
    · exact Or.inl h
    · exact Or.inr (hkeys ▸ h)
  · intro rec hm k hk
    rw [actionsReshape, reshapeCore] at hm
    obtain ⟨kv, hkv, hr⟩ := List.mem_map.mp hm
    have hkv₂ : kv ∈ rows₂.foldl (reshapeStep actionShortKey actionsInit loc₂) [] :=
      (sortPairs_perm _).mem_iff.mp hkv
    rw [← hr] at hk
    rcases pyKeys_pyMergeDt_subset kv.1 kv.2 k hk with h | h
    · exact Or.inl h
    · have := innerKeys_reshapeFold_subset actionShortKey actionsInit loc₂
        (fun k₂ => ∃ r ∈ rows₂, lastSegment r.fieldId = k₂) rows₂ []
        (fun r hr₂ sk hs => ⟨r, hr₂, (by simpa [actionShortKey] using hs.symm : sk = lastSegment r.fieldId).symm⟩)
        (by simp) kv hkv₂ k h
      rcases this with h₂ | h₂
      · exact Or.inr (Or.inl h₂)
      · exact Or.inr (Or.inr h₂)

/-- Claim C10: in forecast reshaping the record for a timestamp is created
before the field is examined, so a timestamp whose rows all carry unrecognized
fields still yields a record with `dt` set and all seven short keys null, and
the output length counts the distinct local timestamps of all rows. -/
theorem claim_C10 {τ : Type} (loc : τ → String) (rows : List (Row τ)) :
    (forecastReshape loc rows).length = ((locKeys loc rows).dedup).length ∧
    ∀ k ∈ locKeys loc rows,
      (∀ r ∈ rows, loc r.time = k → forecastShortKey r.fieldId = none) →
      (("dt", Value.str k) :: forecastInit) ∈ forecastReshape loc rows := by
  constructor
  · exact (reshapeCore_spec forecastShortKey forecastInit loc rows
      (by decide) (by decide) (fun r _ sk h => forecastShortKey_mem r.fieldId sk h)).1
  · intro k hk hunrec
    set outer := rows.foldl (reshapeStep forecastShortKey forecastInit loc) []
      with houter
    have hmem : k ∈ pyKeys outer := by
      rw [houter, mem_pyKeys_reshapeFold]
      simp [hk]
    have hlook : pyLookup outer k = some forecastInit := by
      rcases untouched_reshapeFold forecastShortKey forecastInit loc rows [] k
        hunrec (by simp [pyLookup]) with h | h
      · exact absurd ((pyLookup_eq_none_iff outer k).mp h) (not_not.mpr hmem)
      · exact h
    have hpair : (k, forecastInit) ∈ sortPairs outer :=
      (sortPairs_perm outer).mem_iff.mpr (pyLookup_mem outer k forecastInit hlook)
    rw [forecastReshape, reshapeCore]
    have : pyMergeDt k forecastInit = ("dt", Value.str k) :: forecastInit :=
      pyMergeDt_eq k forecastInit (by decide) (by decide)
    rw [← this]
    exact List.mem_map_of_mem (fun kv => pyMergeDt kv.1 kv.2) hpair

theorem claim_C10_witness :
    ((forecastReshape (fun t : String => t)
        [Row.mk "2024-05-01T10:00:00+02:00" "bogus/field" Value.null]).length
      = ((locKeys (fun t : String => t)
        [Row.mk "2024-05-01T10:00:00+02:00" "bogus/field" Value.null]).dedup).length) ∧
    (("dt", Value.str "2024-05-01T10:00:00+02:00") :: forecastInit) ∈
      forecastReshape (fun t : String => t)
        [Row.mk "2024-05-01T10:00:00+02:00" "bogus/field" Value.null] := by
  refine ⟨(claim_C10 (fun t : String => t) _).1, ?_⟩
  exact (claim_C10 (fun t : String => t)
    [Row.mk "2024-05-01T10:00:00+02:00" "bogus/field" Value.null]).2
    "2024-05-01T10:00:00+02:00" (by decide) (by decide)

/-! ## Claim C3 (error mapping of the four query operations) -/

/-- Claim C3: on every query operation a backend exception with status 401
raises `SolarCubeApiAuthError` (never `SolarCubeApiRequestError`), and one
with any other status raises `SolarCubeApiRequestError` (never
`SolarCubeApiAuthError`). -/
theorem claim_C3 (e : ApiException) :
    SolarCubeError.authError ≠ SolarCubeError.requestError ∧
    (e.status = some 401 →
      async_validate (.error e) = .error .authError ∧
      async_query_last (.error e) = .error .authError ∧
      async_get_forecast (fun t : String => t) (.error e) = .error .authError ∧
      async_get_optimal_actions (fun t : String => t) (.error e) = .error .authError) ∧
    (e.status ≠ some 401 →
      async_validate (.error e) = .error .requestError ∧
      async_query_last (.error e) = .error .requestError ∧
      async_get_forecast (fun t : String => t) (.error e) = .error .requestError ∧
      async_get_optimal_actions (fun t : String => t) (.error e) = .error .requestError) := by
  refine ⟨by simp, ?_, ?_⟩
  · intro h
    simp [async_validate, async_query_last, async_get_forecast,
      async_get_optimal_actions, mapApiError, h]
  · intro h
    simp [async_validate, async_query_last, async_get_forecast,
      async_get_optimal_actions, mapApiError, h]

theorem claim_C3_witness :
    ((ApiException.mk (some 401)).status = some 401 ∧
      async_validate (.error (ApiException.mk (some 401))) = .error .authError ∧
      async_query_last (.error (ApiException.mk (some 401))) = .error .authError ∧
      async_get_forecast (fun t : String => t)
        (.error (ApiException.mk (some 401))) = .error .authError ∧
      async_get_optimal_actions (fun t : String => t)
        (.error (ApiException.mk (some 401))) = .error .authError) ∧
    ((ApiException.mk (some 500)).status ≠ some 401 ∧
      async_validate (.error (ApiException.mk (some 500))) = .error .requestError ∧
      async_query_last (.error (ApiException.mk (some 500))) = .error .requestError ∧
      async_get_forecast (fun t : String => t)
        (.error (ApiException.mk (some 500))) = .error .requestError ∧
      async_get_optimal_actions (fun t : String => t)
        (.error (ApiException.mk (some 500))) = .error .requestError) := by
  constructor
  · have h := (claim_C3 (ApiException.mk (some 401))).2.1 rfl
    exact ⟨rfl, h.1, h.2.1, h.2.2.1, h.2.2.2⟩
  · have h := (claim_C3 (ApiException.mk (some 500))).2.2 (by decide)
    exact ⟨by decide, h.1, h.2.1, h.2.2.1, h.2.2.2⟩

/-! ## Flux string literals (api.py, `_flux_str_literal` / `_bucket_literal`)

`_flux_str_literal(value)` is `json.dumps(value)` for a `str` argument:
CPython (with the default `ensure_ascii=True`) emits a double-quoted literal
escaping `"` and `\`, using the short escapes for backspace, form feed,
newline, carriage return and tab, `\u00XX` for the other control characters,
and `\uXXXX` (with surrogate pairs above U+FFFF) for every character outside
`0x20..0x7e`. -/

/-- Lowercase hex digit for `n < 16` (CPython emits lowercase hex). -/
def hexDigit (n : Nat) : Char :=
  if n < 10 then Char.ofNat (48 + n) else Char.ofNat (87 + n)

/-- Four-digit hex rendering of `n < 0x10000`. -/
def hex4 (n : Nat) : List Char :=
  [hexDigit (n / 4096 % 16), hexDigit (n / 256 % 16), hexDigit (n / 16 % 16),
   hexDigit (n % 16)]

/-- The `\uXXXX` escape of a code point, as a surrogate pair above U+FFFF. -/
def uEscape (n : Nat) : List Char :=
  if 0x10000 ≤ n then
    '\\' :: 'u' :: hex4 (0xD800 + (n - 0x10000) / 0x400) ++
      '\\' :: 'u' :: hex4 (0xDC00 + (n - 0x10000) % 0x400)
  else '\\' :: 'u' :: hex4 n

/-- `json.dumps` escaping of one character. -/
def encodeChar (c : Char) : List Char :=
  if c = '"' then ['\\', '"']
  else if c = '\\' then ['\\', '\\']
  else if c = '\n' then ['\\', 'n']
  else if c = '\r' then ['\\', 'r']
  else if c = '\t' then ['\\', 't']
  else if c.toNat = 8 then ['\\', 'b']
  else if c.toNat = 12 then ['\\', 'f']
  else if c.toNat < 0x20 ∨ 0x7e < c.toNat then uEscape c.toNat
  else [c]

/-- `_flux_str_literal(value)`, i.e. `json.dumps(value)` for a string. -/
def _flux_str_literal (s : String) : String :=
  String.mk ('"' :: (s.data.map encodeChar).flatten ++ ['"'])

/-- The whitespace set stripped by Python's `str.strip()`. -/
def pyIsSpace (c : Char) : Bool :=
  decide ((9 ≤ c.toNat ∧ c.toNat ≤ 13) ∨ (28 ≤ c.toNat ∧ c.toNat ≤ 32) ∨
    c.toNat = 0x85 ∨ c.toNat = 0xA0 ∨ c.toNat = 0x1680 ∨
    (0x2000 ≤ c.toNat ∧ c.toNat ≤ 0x200A) ∨ c.toNat = 0x2028 ∨ c.toNat = 0x2029 ∨
    c.toNat = 0x202F ∨ c.toNat = 0x205F ∨ c.toNat = 0x3000)

/-- Python's `s.strip()`. -/
def pyStrip (s : String) : String :=
  String.mk (((s.data.dropWhile pyIsSpace).reverse.dropWhile pyIsSpace).reverse)

/-- `_bucket_literal(bucket)` is `_flux_str_literal((bucket or "").strip())`. -/
def _bucket_literal (bucket : String) : String :=
  _flux_str_literal (pyStrip bucket)

/-! ### A JSON string-literal decoder (from the JSON grammar, spec side)

This is the reference definition used to state claim C8: decoding a
double-quoted JSON string literal.  It follows RFC 8259: a leading and a
trailing quote, the two-character escapes, `\uXXXX` escapes combining
well-formed surrogate pairs, and unescaped characters excluding controls,
the quote and the backslash. -/

/-- Value of a hex digit character. -/
def fromHexDigit (c : Char) : Option Nat :=
  if 48 ≤ c.toNat ∧ c.toNat ≤ 57 then some (c.toNat - 48)
  else if 97 ≤ c.toNat ∧ c.toNat ≤ 102 then some (c.toNat - 87)
  else if 65 ≤ c.toNat ∧ c.toNat ≤ 70 then some (c.toNat - 55)
  else none

/-- The single-character JSON escapes. -/
def simpleEscape (e : Char) : Option Char :=
  if e = '"' then some '"'
  else if e = '\\' then some '\\'
  else if e = '/' then some '/'
  else if e = 'b' then some (Char.ofNat 8)
  else if e = 'f' then some (Char.ofNat 12)
  else if e = 'n' then some '\n'
  else if e = 'r' then some '\r'
  else if e = 't' then some '\t'
  else none

/-- Value of a four-hex-digit group. -/
def hexVal (a b c d : Char) : Option Nat :=
  match fromHexDigit a, fromHexDigit b, fromHexDigit c, fromHexDigit d with
  | some x, some y, some z, some w => some (4096 * x + 256 * y + 16 * z + w)
  | _, _, _, _ => none

/-- Read a `\uXXXX` payload: four hex digits, returning the code unit and the
remaining input. -/
def decodeUEscape : List Char → Option (Nat × List Char)
  | a :: b :: c :: d :: rest =>
    (match hexVal a b c d with
     | some n => some (n, rest)
     | none => none)
  | _ => none

/-- Decode the payload of one escape sequence (the part after the backslash),
returning the decoded character and the remaining input.  A high surrogate
must be followed by `\u` and a low surrogate, which are combined. -/
def decodeEscape : List Char → Option (Char × List Char)
  | [] => none
  | e :: rest =>
    if e = 'u' then
      match decodeUEscape rest with
      | some (n, rest₂) =>
        if 0xD800 ≤ n ∧ n ≤ 0xDBFF then
          match rest₂ with
          | e₂ :: u₂ :: rest₃ =>
            if e₂ = '\\' ∧ u₂ = 'u' then
              match decodeUEscape rest₃ with
              | some (m, rest₄) =>
                if 0xDC00 ≤ m ∧ m ≤ 0xDFFF then
                  some (Char.ofNat (0x10000 + (n - 0xD800) * 0x400 + (m - 0xDC00)), rest₄)
                else none
              | none => none
            else none
          | _ => none
        else if 0xDC00 ≤ n ∧ n ≤ 0xDFFF then none
        else some (Char.ofNat n, rest₂)
      | none => none
    else (simpleEscape e).map (fun ch => (ch, rest))

theorem decodeUEscape_length (l : List Char) (n : Nat) (r : List Char)
    (h : decodeUEscape l = some (n, r)) : l.length = r.length + 4 := by
  match l with
  | [] => simp [decodeUEscape] at h
  | [_] => simp [decodeUEscape] at h
  | [_, _] => simp [decodeUEscape] at h
  | [_, _, _] => simp [decodeUEscape] at h
  | a :: b :: c :: d :: rest =>
    cases hv : hexVal a b c d with
    | none => simp [decodeUEscape, hv] at h
    | some n₂ =>
      simp [decodeUEscape, hv] at h
      rw [← h.2]
      simp

theorem decodeEscape_length (l : List Char) (p : Char × List Char)
    (h : decodeEscape l = some p) : p.2.length < l.length := by
  match l with
  | [] => simp [decodeEscape] at h
  | e :: rest =>
    by_cases hu : e = 'u'
    · subst hu
      rw [decodeEscape, if_pos rfl] at h
      cases h1 : decodeUEscape rest with
      | none => rw [h1] at h; simp at h
      | some v =>
        obtain ⟨n, rest₂⟩ := v
        rw [h1] at h
        dsimp only at h
        have hlen1 := decodeUEscape_length rest n rest₂ h1
        by_cases hs : 0xD800 ≤ n ∧ n ≤ 0xDBFF
        · rw [if_pos hs] at h
          match rest₂, hlen1 with
          | [], _ => simp at h
          | [_], _ => simp at h
          | e₂ :: u₂ :: rest₃, hlen1 =>
            dsimp only at h
            by_cases he₂ : e₂ = '\\' ∧ u₂ = 'u'
            · rw [if_pos he₂] at h
              cases h2 : decodeUEscape rest₃ with
              | none => rw [h2] at h; simp at h
              | some w =>
                obtain ⟨m, rest₄⟩ := w
                rw [h2] at h
                dsimp only at h
                have hlen2 := decodeUEscape_length rest₃ m rest₄ h2
                by_cases hm : 0xDC00 ≤ m ∧ m ≤ 0xDFFF
                · rw [if_pos hm] at h
                  simp at h
                  rw [← h]
                  simp at hlen1 ⊢
                  omega
                · rw [if_neg hm] at h; simp at h
            · rw [if_neg he₂] at h; simp at h
        · rw [if_neg hs] at h
          by_cases hn : 0xDC00 ≤ n ∧ n ≤ 0xDFFF
          · rw [if_pos hn] at h; simp at h
          · rw [if_neg hn] at h
            simp at h
            rw [← h]
            simp
            omega
    · rw [decodeEscape, if_neg hu] at h
      cases hse : simpleEscape e with
      | none => rw [hse] at h; simp at h
      | some ch =>
        rw [hse] at h
        simp at h
        rw [← h]
        simp

/-- Decode the body of a JSON string literal: characters up to a closing
quote, which must end the input. -/
def decodeBody : List Char → Option (List Char)
  | [] => none
  | c :: rest =>
    if c = '"' then (if rest = [] then some [] else none)
    else if c = '\\' then
      match h : decodeEscape rest with
      | some p => (decodeBody p.2).map (p.1 :: ·)
      | none => none
    else if c.toNat < 0x20 then none
    else (decodeBody rest).map (c :: ·)
termination_by l => l.length
decreasing_by
  · simp only [List.length_cons]
    exact Nat.lt_succ_of_lt (decodeEscape_length rest p h)
  · simp only [List.length_cons]
    exact Nat.lt_succ_self _

/-- Decode a complete JSON string literal. -/
def jsonDecodeString (s : String) : Option String :=
  match s.data with
  | [] => none
  | c :: rest => if c = '"' then (decodeBody rest).map String.mk else none

/-! ### Round-trip: decoding an encoded literal recovers the original string -/

theorem fromHexDigit_hexDigit (n : Nat) (h : n < 16) :
    fromHexDigit (hexDigit n) = some n := by
  interval_cases n <;> decide

theorem hexVal_hex4 (n : Nat) (h : n < 0x10000) :
    hexVal (hexDigit (n / 4096 % 16)) (hexDigit (n / 256 % 16))
      (hexDigit (n / 16 % 16)) (hexDigit (n % 16)) = some n := by
  rw [hexVal, fromHexDigit_hexDigit _ (Nat.mod_lt _ (by norm_num)),
    fromHexDigit_hexDigit _ (Nat.mod_lt _ (by norm_num)),
    fromHexDigit_hexDigit _ (Nat.mod_lt _ (by norm_num)),
    fromHexDigit_hexDigit _ (Nat.mod_lt _ (by norm_num))]
  dsimp only
  congr 1
  omega

theorem decodeUEscape_hex4 (n : Nat) (h : n < 0x10000) (rest : List Char) :
    decodeUEscape (hex4 n ++ rest) = some (n, rest) := by
  simp only [hex4, List.cons_append, List.nil_append]
  show (match hexVal (hexDigit (n / 4096 % 16)) (hexDigit (n / 256 % 16))
      (hexDigit (n / 16 % 16)) (hexDigit (n % 16)) with
    | some n => some (n, rest)
    | none => none) = some (n, rest)
  rw [hexVal_hex4 n h]

theorem decodeEscape_u_single (n : Nat) (rest : List Char) (h1 : n < 0x10000)
    (hns : ¬ (0xD800 ≤ n ∧ n ≤ 0xDFFF)) :
    decodeEscape ('u' :: (hex4 n ++ rest)) = some (Char.ofNat n, rest) := by
  have hA : ¬ (0xD800 ≤ n ∧ n ≤ 0xDBFF) := by omega
  have hB : ¬ (0xDC00 ≤ n ∧ n ≤ 0xDFFF) := by omega
  rw [decodeEscape, if_pos rfl, decodeUEscape_hex4 n h1 rest]
  try dsimp only
  rw [if_neg hA, if_neg hB]

theorem decodeEscape_u_pair (n : Nat) (rest : List Char) (h1 : 0x10000 ≤ n)
    (h2 : n < 0x110000) :
    decodeEscape ('u' :: (hex4 (0xD800 + (n - 0x10000) / 0x400) ++
        ('\\' :: 'u' :: (hex4 (0xDC00 + (n - 0x10000) % 0x400) ++ rest)))) =
      some (Char.ofNat n, rest) := by
  have hmod := Nat.mod_lt (n - 0x10000) (show 0 < 0x400 by norm_num)
  have hdiv : (n - 0x10000) / 0x400 < 0x400 := Nat.div_lt_of_lt_mul (by omega)
  have hhi : 0xD800 + (n - 0x10000) / 0x400 < 0x10000 := by omega
  have hlo : 0xDC00 + (n - 0x10000) % 0x400 < 0x10000 := by omega
  have hA : 0xD800 ≤ 0xD800 + (n - 0x10000) / 0x400 ∧
      0xD800 + (n - 0x10000) / 0x400 ≤ 0xDBFF := by omega
  have hB : 0xDC00 ≤ 0xDC00 + (n - 0x10000) % 0x400 ∧
      0xDC00 + (n - 0x10000) % 0x400 ≤ 0xDFFF := by omega
  have hcomb : 0x10000 + (0xD800 + (n - 0x10000) / 0x400 - 0xD800) * 0x400 +
      (0xDC00 + (n - 0x10000) % 0x400 - 0xDC00) = n := by
    have h3 : 0x400 * ((n - 0x10000) / 0x400) + (n - 0x10000) % 0x400 = n - 0x10000 :=
      Nat.div_add_mod _ _
    omega
  rw [decodeEscape, if_pos rfl, decodeUEscape_hex4 _ hhi]
  try dsimp only
  rw [if_pos hA]
  try dsimp only
  rw [if_pos ⟨rfl, rfl⟩, decodeUEscape_hex4 _ hlo]
  try dsimp only
  rw [if_pos hB, hcomb]

theorem decodeBody_plain (c : Char) (rest : List Char) (h1 : c ≠ '"')
    (h2 : c ≠ '\\') (h3 : ¬ c.toNat < 0x20) :
    decodeBody (c :: rest) = (decodeBody rest).map (c :: ·) := by
  rw [decodeBody, if_neg h1, if_neg h2, if_neg h3]

theorem decodeBody_esc_some (rest : List Char) (p : Char × List Char)
    (h : decodeEscape rest = some p) :
    decodeBody ('\\' :: rest) = (decodeBody p.2).map (p.1 :: ·) := by
  rw [decodeBody, if_neg (by decide : ('\\' : Char) ≠ '"'), if_pos rfl]
  split
  · rename_i p₂ heq
    rw [h] at heq
    cases heq
    rfl
  · rename_i heq
    rw [h] at heq
    cases heq

theorem decodeBody_simpleEscape (e ch : Char) (rest : List Char) (hu : e ≠ 'u')
    (hse : simpleEscape e = some ch) :
    decodeBody ('\\' :: e :: rest) = (decodeBody rest).map (ch :: ·) := by
  apply decodeBody_esc_some (e :: rest) (ch, rest)
  rw [decodeEscape, if_neg hu, hse]
  rfl

theorem decodeBody_u_single (n : Nat) (rest : List Char) (h1 : n < 0x10000)
    (hns : ¬ (0xD800 ≤ n ∧ n ≤ 0xDFFF)) :
    decodeBody ('\\' :: 'u' :: (hex4 n ++ rest)) =
      (decodeBody rest).map (Char.ofNat n :: ·) :=
  decodeBody_esc_some _ (Char.ofNat n, rest) (decodeEscape_u_single n rest h1 hns)

theorem decodeBody_u_pair (n : Nat) (rest : List Char) (h1 : 0x10000 ≤ n)
    (h2 : n < 0x110000) :
    decodeBody ('\\' :: 'u' :: (hex4 (0xD800 + (n - 0x10000) / 0x400) ++
        ('\\' :: 'u' :: (hex4 (0xDC00 + (n - 0x10000) % 0x400) ++ rest)))) =
      (decodeBody rest).map (Char.ofNat n :: ·) :=
  decodeBody_esc_some _ (Char.ofNat n, rest) (decodeEscape_u_pair n rest h1 h2)

theorem decodeBody_encode (cs : List Char) :
    decodeBody ((cs.map encodeChar).flatten ++ ['"']) = some cs := by
  induction cs with
  | nil =>
    show decodeBody ['"'] = some []
    rw [decodeBody]
    rfl
  | cons c cs ih =>
    simp only [List.map_cons, List.flatten_cons, List.append_assoc]
    have hvalid : c.toNat < 0xd800 ∨ (0xdfff < c.toNat ∧ c.toNat < 0x110000) :=
      c.valid
    by_cases h1 : c = '"'
    · subst h1
      rw [show encodeChar '"' = ['\\', '"'] from rfl]
      rw [List.cons_append, List.cons_append, List.nil_append,
        decodeBody_simpleEscape '"' '"' _ (by decide) (by decide), ih]
      rfl
    · by_cases h2 : c = '\\'
      · subst h2
        rw [show encodeChar '\\' = ['\\', '\\'] from rfl]
        rw [List.cons_append, List.cons_append, List.nil_append,
          decodeBody_simpleEscape '\\' '\\' _ (by decide) (by decide), ih]
        rfl
      · by_cases h3 : c = '\n'
        · subst h3
          rw [show encodeChar '\n' = ['\\', 'n'] from rfl]
          rw [List.cons_append, List.cons_append, List.nil_append,
            decodeBody_simpleEscape 'n' '\n' _ (by decide) (by decide), ih]
          rfl
        · by_cases h4 : c = '\r'
          · subst h4
            rw [show encodeChar '\r' = ['\\', 'r'] from rfl]
            rw [List.cons_append, List.cons_append, List.nil_append,
              decodeBody_simpleEscape 'r' '\r' _ (by decide) (by decide), ih]
            rfl
          · by_cases h5 : c = '\t'
            · subst h5
              rw [show encodeChar '\t' = ['\\', 't'] from rfl]
              rw [List.cons_append, List.cons_append, List.nil_append,
                decodeBody_simpleEscape 't' '\t' _ (by decide) (by decide), ih]
              rfl
            · by_cases h6 : c.toNat = 8
              · have hc : c = Char.ofNat 8 := by
                  rw [← h6, Char.ofNat_toNat]
                rw [show encodeChar c = ['\\', 'b'] by
                  simp [encodeChar, h1, h2, h3, h4, h5, h6]]
                rw [List.cons_append, List.cons_append, List.nil_append,
                  decodeBody_simpleEscape 'b' (Char.ofNat 8) _ (by decide) (by decide),
                  ih, hc]
                rfl
              · by_cases h7 : c.toNat = 12
                · have hc : c = Char.ofNat 12 := by
                    rw [← h7, Char.ofNat_toNat]
                  rw [show encodeChar c = ['\\', 'f'] by
                    simp [encodeChar, h1, h2, h3, h4, h5, h6, h7]]
                  rw [List.cons_append, List.cons_append, List.nil_append,
                    decodeBody_simpleEscape 'f' (Char.ofNat 12) _ (by decide) (by decide),
                    ih, hc]
                  rfl
                · by_cases h8 : c.toNat < 0x20 ∨ 0x7e < c.toNat
                  · rw [show encodeChar c = uEscape c.toNat by
                      simp [encodeChar, h1, h2, h3, h4, h5, h6, h7, h8]]
                    rw [uEscape]
                    by_cases h9 : 0x10000 ≤ c.toNat
                    · have hv2 : c.toNat < 0x110000 := by
                        rcases hvalid with h | h
                        · omega
                        · exact h.2
                      rw [if_pos h9]
                      simp only [List.cons_append, List.append_assoc, List.nil_append]
                      rw [decodeBody_u_pair c.toNat _ h9 hv2, ih, Char.ofNat_toNat]
                      rfl
                    · have hns : ¬ (0xD800 ≤ c.toNat ∧ c.toNat ≤ 0xDFFF) := by
                        rcases hvalid with h | h
                        · omega
                        · omega
                      rw [if_neg h9]
                      simp only [List.cons_append, List.nil_append]
                      rw [decodeBody_u_single c.toNat _ (by omega) hns, ih,
                        Char.ofNat_toNat]
                      rfl
                  · rw [show encodeChar c = [c] by
                      simp [encodeChar, h1, h2, h3, h4, h5, h6, h7, h8]]
                    rw [List.cons_append, List.nil_append]
                    rw [decodeBody_plain c _ h1 h2 (by omega), ih]
                    rfl

/-- Claim C8: for every string `s`, the Flux literal embedded in a query is a
JSON-style double-quoted literal whose JSON decoding recovers `s` exactly (for
bucket literals: `s` stripped of surrounding whitespace), so no bucket,
measurement, or field name can close the quoted literal. -/
theorem claim_C8 (s : String) :
    jsonDecodeString (_flux_str_literal s) = some s ∧
    jsonDecodeString (_bucket_literal s) = some (pyStrip s) := by
  have main : ∀ t : String, jsonDecodeString (_flux_str_literal t) = some t := by
    intro t
    obtain ⟨data⟩ := t
    show (if ('"' : Char) = '"' then
        (decodeBody ((data.map encodeChar).flatten ++ ['"'])).map String.mk
      else none) = some (String.mk data)
    rw [if_pos rfl, decodeBody_encode]
    rfl
  exact ⟨main s, main (pyStrip s)⟩

/-! ## Python scalar values and the automations merge (__init__.py)

`_load_yaml_list` and `_read_merge_write` look at YAML mappings through
`.get("id")` / `.get("alias")`, `str(...)`, truthiness, `.strip()` and
`.lower()`.  `PyVal` models the scalar values these operations see; a parsed
YAML mapping is an association list of string keys to such values. -/

inductive PyVal where
  | none
  | str (s : String)
  | int (n : Int)
  | bool (b : Bool)
deriving DecidableEq

/-- Python's `str(x)` on a scalar. -/
def pyStr : PyVal → String
  | .none => "None"
  | .str s => s
  | .int n => toString n
  | .bool b => if b then "True" else "False"

/-- Python truthiness of a scalar. -/
def pyTruthy : PyVal → Bool
  | .none => false
  | .str s => s != ""
  | .int n => n != 0
  | .bool b => b

/-- Python's `x or y`. -/
def pyOr (x y : PyVal) : PyVal := if pyTruthy x then x else y

/-- A parsed YAML mapping (one automation). -/
abbrev PyDict := List (String × PyVal)

/-- `d.get(k)`: `None` when the key is absent. -/
def pyGet (d : PyDict) (k : String) : PyVal :=
  match pyLookup d k with
  | some v => v
  | Option.none => PyVal.none

/-- Python's `str.lower()` (ASCII case folding; the merge compares aliases
case-insensitively through it). -/
def pyLower (s : String) : String := s.toLower

/-- The outcome of reading and YAML-parsing a file in `_load_yaml_list`. -/
inductive FileRead where
  | osError
  | blank
  | parseError
  | yamlNone
  | yamlNonList
  | yamlList (items : List (Option PyDict))
deriving DecidableEq

/-- `_load_yaml_list`: OSError, a blank file, a parse error, a `None`
document or a non-list document all yield `[]`; a list keeps only its
mapping items (`some` = a mapping, `none` = a non-dict item). -/
def _load_yaml_list : FileRead → List PyDict
  | .osError => []
  | .blank => []
  | .parseError => []
  | .yamlNone => []
  | .yamlNonList => []
  | .yamlList items => items.filterMap id

/-- `str(automation.get("id") or "").strip()` for a shipped automation. -/
def shippedIdOf (a : PyDict) : String :=
  pyStrip (pyStr (pyOr (pyGet a "id") (PyVal.str "")))

/-- `str(automation.get("alias") or "").strip()` for a shipped automation. -/
def shippedAliasOf (a : PyDict) : String :=
  pyStrip (pyStr (pyOr (pyGet a "alias") (PyVal.str "")))

/-- The set comprehension `existing_ids` (string-typed, non-blank ids,
stripped). -/
def existingIds (existing : List PyDict) : List String :=
  existing.filterMap fun a =>
    match pyGet a "id" with
    | PyVal.str s => if pyStrip s == "" then Option.none else some (pyStrip s)
    | _ => Option.none

/-- The set comprehension `existing_aliases` (string-typed, non-blank
aliases, stripped then lower-cased). -/
def existingAliases (existing : List PyDict) : List String :=
  existing.filterMap fun a =>
    match pyGet a "alias" with
    | PyVal.str s =>
      if pyStrip s == "" then Option.none else some (pyLower (pyStrip s))
    | _ => Option.none

/-- The two `continue` conditions of the merge loop. -/
def skipAutomation (ids aliases : List String) (a : PyDict) : Bool :=
  let aid := shippedIdOf a
  let aalias := shippedAliasOf a
  (aid != "" && ids.contains aid) ||
    (aid == "" && aalias != "" && aliases.contains (pyLower aalias))

/-- `_read_merge_write`: load the existing list (when the file exists),
append every shipped automation that is not a duplicate, and write back only
if something was appended (`some` = written content, `none` = no write, also
when the write raises OSError). -/
def _read_merge_write (shipped : List PyDict) (config_exists : Bool)
    (configFile : FileRead) (write_ok : Bool) : Option (List PyDict) :=
  let existing := if config_exists then _load_yaml_list configFile else []
  let ids := existingIds existing
  let aliases := existingAliases existing
  let res := shipped.foldl
    (fun (acc : List PyDict × Bool) a =>
      if skipAutomation ids aliases a then acc else (acc.1 ++ [a], true))
    (existing, false)
  if res.2 then (if write_ok then some res.1 else Option.none) else Option.none

theorem merge_foldl (p : PyDict → Bool) (shipped acc : List PyDict) (flag : Bool) :
    shipped.foldl
      (fun (acc : List PyDict × Bool) a =>
        if p a then acc else (acc.1 ++ [a], true)) (acc, flag) =
      (acc ++ shipped.filter (fun a => !p a),
        flag || !(shipped.filter (fun a => !p a)).isEmpty) := by
  induction shipped generalizing acc flag with
  | nil => simp
  | cons a rest ih =>
    by_cases hp : p a
    · simp only [List.foldl_cons, if_pos hp, ih, List.filter_cons, hp]
      simp
    · simp only [List.foldl_cons, if_neg hp, ih, List.filter_cons,
        Bool.not_eq_true', hp]
      simp

/-- Claim C6: a shipped automation is skipped exactly when its non-empty id
already occurs among the user file's (string-typed, non-blank) ids, or, when
it has no id, its non-empty alias matches an existing alias
case-insensitively; all other shipped automations are appended after the
existing entries, and the file is written back only if at least one
automation was appended (and the write itself succeeds). -/
theorem claim_C6 (shipped : List PyDict) (config_exists : Bool)
    (configFile : FileRead) (write_ok : Bool) :
    _read_merge_write shipped config_exists configFile write_ok =
      (let existing := if config_exists then _load_yaml_list configFile else []
       let appended := shipped.filter
         (fun a => !skipAutomation (existingIds existing)
           (existingAliases existing) a)
       if appended.isEmpty then Option.none
       else if write_ok then some (existing ++ appended) else Option.none) := by
  rw [_read_merge_write]
  rw [merge_foldl]
  by_cases h : (shipped.filter (fun a => !skipAutomation
      (existingIds (if config_exists then _load_yaml_list configFile else []))
      (existingAliases (if config_exists then _load_yaml_list configFile else []))
      a)).isEmpty
  · simp [h]
  · simp [h]

/-! ## JSON values and the Energy dashboard merge (__init__.py)

`_read_modify_write` reads `.storage/energy` with `json.loads` and compares
Python dicts with `==`.  `J` models JSON values; objects are insertion-ordered
association lists with (for anything `json.loads` produces) unique keys.
`J.eqb` models Python `==` on such values: lists compare elementwise in
order, dicts compare by key lookup, ignoring insertion order (CPython:
length check, then every key of the left dict is looked up in the right).
It is implemented with a structural fuel argument so that it evaluates by
kernel reduction; `sizeOf` bounds the needed fuel. -/

inductive J where
  | null
  | bool (b : Bool)
  | num (q : ℚ)
  | str (s : String)
  | arr (xs : List J)
  | obj (kvs : List (String × J))

mutual
/-- Size of a JSON value (bounds the recursion depth of `J.eqb`). -/
def J.size : J → Nat
  | .null => 1
  | .bool _ => 1
  | .num _ => 1
  | .str _ => 1
  | .arr xs => 1 + J.sizeList xs
  | .obj kvs => 1 + J.sizeObj kvs

def J.sizeList : List J → Nat
  | [] => 0
  | x :: xs => J.size x + J.sizeList xs

def J.sizeObj : List (String × J) → Nat
  | [] => 0
  | (_, v) :: kvs => J.size v + J.sizeObj kvs
end

/-- Elementwise list comparison with a given value comparator. -/
def listEqWith (f : J → J → Bool) : List J → List J → Bool
  | [], [] => true
  | x :: xs, y :: ys => f x y && listEqWith f xs ys
  | _, _ => false

/-- Look up key `k` in `b` and compare its value with `v`. -/
def findWith (f : J → J → Bool) (k : String) (v : J) : List (String × J) → Bool
  | [] => false
  | (k₂, v₂) :: rest => if k₂ = k then f v v₂ else findWith f k v rest

/-- Every entry of `a` has a matching entry in `b`. -/
def objInWith (f : J → J → Bool) (a b : List (String × J)) : Bool :=
  a.all (fun kv => findWith f kv.1 kv.2 b)

/-- Python `==` on JSON values, with structural fuel. -/
def eqbF : Nat → J → J → Bool
  | 0, _, _ => false
  | fuel + 1, x, y =>
    match x, y with
    | .null, .null => true
    | .bool a, .bool b => a == b
    | .num a, .num b => a == b
    | .str a, .str b => a == b
    | .arr a, .arr b => listEqWith (eqbF fuel) a b
    | .obj a, .obj b => a.length == b.length && objInWith (eqbF fuel) a b
    | _, _ => false

/-- Python `==` on JSON values (`J.size` bounds the recursion depth). -/
def J.eqb (x y : J) : Bool := eqbF (J.size x) x y

/-- Keys of an association list are pairwise distinct. -/
def nodupKeysb : List (String × J) → Bool
  | [] => true
  | (k, _) :: rest => !(rest.any (fun kv => kv.1 == k)) && nodupKeysb rest

/-- Well-formedness with structural fuel: every object in the value has
duplicate-free keys (true of everything `json.loads` produces). -/
def wfbF : Nat → J → Bool
  | 0, _ => false
  | fuel + 1, x =>
    match x with
    | .arr xs => xs.all (wfbF fuel)
    | .obj kvs => nodupKeysb kvs && kvs.all (fun kv => wfbF fuel kv.2)
    | _ => true

/-- Well-formedness of a JSON value (duplicate-free object keys, deeply). -/
def J.wfb (x : J) : Bool := wfbF (J.size x) x

theorem J.one_le_size (x : J) : 1 ≤ J.size x := by
  cases x <;> simp [J.size]

theorem J.sizeList_mem (xs : List J) (x : J) (h : x ∈ xs) :
    J.size x ≤ J.sizeList xs := by
  induction xs with
  | nil => simp at h
  | cons u rest ih =>
    rcases List.mem_cons.mp h with h₂ | h₂
    · subst h₂
      simp only [J.sizeList]
      omega
    · have := ih h₂
      simp only [J.sizeList]
      omega

theorem J.sizeObj_mem (kvs : List (String × J)) (kv : String × J) (h : kv ∈ kvs) :
    J.size kv.2 ≤ J.sizeObj kvs := by
  induction kvs with
  | nil => simp at h
  | cons u rest ih =>
    obtain ⟨k₂, v₂⟩ := u
    rcases List.mem_cons.mp h with h₂ | h₂
    · subst h₂
      simp only [J.sizeObj]
      omega
    · have := ih h₂
      simp only [J.sizeObj]
      omega

theorem size_arr_mem (xs : List J) (x : J) (h : x ∈ xs) :
    J.size x < J.size (J.arr xs) := by
  have := J.sizeList_mem xs x h
  simp [J.size]
  omega

theorem size_obj_mem (kvs : List (String × J)) (kv : String × J)
    (h : kv ∈ kvs) : J.size kv.2 < J.size (J.obj kvs) := by
  have := J.sizeObj_mem kvs kv h
  simp [J.size]
  omega

theorem all_congr_mem {α : Type} (l : List α) (f g : α → Bool)
    (h : ∀ a ∈ l, f a = g a) : l.all f = l.all g := by
  induction l with
  | nil => rfl
  | cons a rest ih =>
    simp only [List.all_cons]
    rw [h a (by simp), ih (fun a ha => h a (by simp [ha]))]

theorem listEqWith_congr (f g : J → J → Bool) (a b : List J)
    (h : ∀ u ∈ a, ∀ w, f u w = g u w) : listEqWith f a b = listEqWith g a b := by
  induction a generalizing b with
  | nil => cases b <;> simp [listEqWith]
  | cons u rest ih =>
    cases b with
    | nil => simp [listEqWith]
    | cons w bs =>
      simp only [listEqWith]
      rw [h u (by simp), ih bs (fun u hu w => h u (by simp [hu]) w)]

theorem findWith_congr (f g : J → J → Bool) (k : String) (v : J)
    (b : List (String × J)) (h : ∀ w, f v w = g v w) :
    findWith f k v b = findWith g k v b := by
  induction b with
  | nil => rfl
  | cons kv rest ih =>
    obtain ⟨k₂, v₂⟩ := kv
    by_cases hk : k₂ = k <;> simp [findWith, hk, h, ih]

theorem objInWith_congr (f g : J → J → Bool) (a b : List (String × J))
    (h : ∀ kv ∈ a, ∀ w, f kv.2 w = g kv.2 w) :
    objInWith f a b = objInWith g a b := by
  unfold objInWith
  apply all_congr_mem
  intro kv hkv
  exact findWith_congr f g kv.1 kv.2 b (h kv hkv)

theorem eqbF_congr (n : Nat) : ∀ (x : J), J.size x ≤ n →
    ∀ (y : J) (f₁ f₂ : Nat), J.size x ≤ f₁ → J.size x ≤ f₂ →
    eqbF f₁ x y = eqbF f₂ x y := by
  induction n with
  | zero =>
    intro x hx
    have := J.one_le_size x
    omega
  | succ n ih =>
    intro x hx y f₁ f₂ h₁ h₂
    have hx1 := J.one_le_size x
    obtain ⟨g₁, rfl⟩ : ∃ g, f₁ = g + 1 := ⟨f₁ - 1, by omega⟩
    obtain ⟨g₂, rfl⟩ : ∃ g, f₂ = g + 1 := ⟨f₂ - 1, by omega⟩
    cases x with
    | null => cases y <;> rfl
    | bool b => cases y <;> rfl
    | num q => cases y <;> rfl
    | str s => cases y <;> rfl
    | arr xs =>
      cases y with
      | arr ys =>
        show listEqWith (eqbF g₁) xs ys = listEqWith (eqbF g₂) xs ys
        apply listEqWith_congr
        intro u hu w
        have hu₂ := size_arr_mem xs u hu
        exact ih u (by omega) w g₁ g₂ (by omega) (by omega)
      | null => rfl
      | bool b => rfl
      | num q => rfl
      | str s => rfl
      | obj kvs => rfl
    | obj kvs =>
      cases y with
      | obj kvs₂ =>
        show (kvs.length == kvs₂.length && objInWith (eqbF g₁) kvs kvs₂) =
          (kvs.length == kvs₂.length && objInWith (eqbF g₂) kvs kvs₂)
        congr 1
        apply objInWith_congr
        intro kv hkv w
        have hkv₂ := size_obj_mem kvs kv hkv
        exact ih kv.2 (by omega) w g₁ g₂ (by omega) (by omega)
      | null => rfl
      | bool b => rfl
      | num q => rfl
      | str s => rfl
      | arr xs => rfl

theorem wfbF_congr (n : Nat) : ∀ (x : J), J.size x ≤ n →
    ∀ (f₁ f₂ : Nat), J.size x ≤ f₁ → J.size x ≤ f₂ →
    wfbF f₁ x = wfbF f₂ x := by
  induction n with
  | zero =>
    intro x hx
    have := J.one_le_size x
    omega
  | succ n ih =>
    intro x hx f₁ f₂ h₁ h₂
    have hx1 := J.one_le_size x
    obtain ⟨g₁, rfl⟩ : ∃ g, f₁ = g + 1 := ⟨f₁ - 1, by omega⟩
    obtain ⟨g₂, rfl⟩ : ∃ g, f₂ = g + 1 := ⟨f₂ - 1, by omega⟩
    cases x with
    | null => rfl
    | bool b => rfl
    | num q => rfl
    | str s => rfl
    | arr xs =>
      show xs.all (wfbF g₁) = xs.all (wfbF g₂)
      apply all_congr_mem
      intro u hu
      have hu₂ := size_arr_mem xs u hu
      exact ih u (by omega) g₁ g₂ (by omega) (by omega)
    | obj kvs =>
      show (nodupKeysb kvs && kvs.all (fun kv => wfbF g₁ kv.2)) =
        (nodupKeysb kvs && kvs.all (fun kv => wfbF g₂ kv.2))
      congr 1
      apply all_congr_mem
      intro kv hkv
      have hkv₂ := size_obj_mem kvs kv hkv
      exact ih kv.2 (by omega) g₁ g₂ (by omega) (by omega)

/-- Characterisation: well-formedness of an array. -/
theorem wfb_arr (xs : List J) : J.wfb (J.arr xs) = xs.all J.wfb := by
  rw [J.wfb]
  have h : J.size (J.arr xs) = J.sizeList xs + 1 := by
    simp [J.size]
    omega
  rw [h]
  show xs.all (wfbF (J.sizeList xs)) = xs.all J.wfb
  apply all_congr_mem
  intro u hu
  have h₁ := J.sizeList_mem xs u hu
  exact wfbF_congr (J.sizeList xs) u (by omega) (J.sizeList xs) (J.size u)
    (by omega) (by omega)

/-- Characterisation: well-formedness of an object. -/
theorem wfb_obj (kvs : List (String × J)) :
    J.wfb (J.obj kvs) = (nodupKeysb kvs && kvs.all (fun kv => J.wfb kv.2)) := by
  rw [J.wfb]
  have h : J.size (J.obj kvs) = J.sizeObj kvs + 1 := by
    simp [J.size]
    omega
  rw [h]
  show (nodupKeysb kvs && kvs.all (fun kv => wfbF (J.sizeObj kvs) kv.2)) = _
  congr 1
  apply all_congr_mem
  intro kv hkv
  have h₁ := J.sizeObj_mem kvs kv hkv
  exact wfbF_congr (J.sizeObj kvs) kv.2 (by omega) (J.sizeObj kvs) (J.size kv.2)
    (by omega) (by omega)

theorem nodupKeysb_iff (d : List (String × J)) :
    nodupKeysb d = true ↔ (pyKeys d).Nodup := by
  induction d with
  | nil => simp [nodupKeysb]
  | cons kv rest ih =>
    obtain ⟨k, v⟩ := kv
    show (!containsKey rest k && nodupKeysb rest) = true ↔ _
    simp only [pyKeys_cons, List.nodup_cons, Bool.and_eq_true, Bool.not_eq_true']
    constructor
    · rintro ⟨h₁, h₂⟩
      refine ⟨fun hm => ?_, ih.mp h₂⟩
      rw [(containsKey_iff_mem_pyKeys rest k).mpr hm] at h₁
      exact absurd h₁ (by simp)
    · rintro ⟨h₁, h₂⟩
      refine ⟨?_, ih.mpr h₂⟩
      rcases hc : containsKey rest k with _ | _
      · rfl
      · exact absurd ((containsKey_iff_mem_pyKeys rest k).mp hc) h₁

theorem findWith_of_lookup (f : J → J → Bool) (k : String) (v : J)
    (b : List (String × J)) (h : pyLookup b k = some v) (hf : f v v = true) :
    findWith f k v b = true := by
  induction b with
  | nil => simp [pyLookup] at h
  | cons kv rest ih =>
    obtain ⟨k₂, v₂⟩ := kv
    by_cases hk : k₂ = k
    · subst hk
      simp [pyLookup] at h
      simp [findWith, h, hf]
    · simp [pyLookup, hk] at h
      simp [findWith, hk, ih h]

theorem listEqWith_diag (f : J → J → Bool) (xs : List J)
    (h : ∀ x ∈ xs, f x x = true) : listEqWith f xs xs = true := by
  induction xs with
  | nil => rfl
  | cons x rest ih =>
    simp only [listEqWith, Bool.and_eq_true]
    exact ⟨h x (by simp), ih (fun x hx => h x (by simp [hx]))⟩

theorem objInWith_diag (f : J → J → Bool) (a : List (String × J))
    (h1 : nodupKeysb a = true) (h2 : ∀ kv ∈ a, f kv.2 kv.2 = true) :
    objInWith f a a = true := by
  unfold objInWith
  rw [List.all_eq_true]
  intro kv hkv
  exact findWith_of_lookup f kv.1 kv.2 a
    (mem_lookup_of_nodup a kv.1 kv.2 ((nodupKeysb_iff a).mp h1)
      (by obtain ⟨k, v⟩ := kv; exact hkv))
    (h2 kv hkv)

theorem eqb_refl_aux (n : Nat) : ∀ x : J, J.size x ≤ n → J.wfb x = true →
    J.eqb x x = true := by
  induction n with
  | zero =>
    intro x hx
    have := J.one_le_size x
    omega
  | succ n ih =>
    intro x hx hwf
    cases x with
    | null => rfl
    | bool b =>
      show (b == b) = true
      simp
    | num q =>
      show (q == q) = true
      simp
    | str s =>
      show (s == s) = true
      simp
    | arr xs =>
      rw [J.eqb, show J.size (J.arr xs) = J.sizeList xs + 1 from by
        simp only [J.size]; omega]
      show listEqWith (eqbF (J.sizeList xs)) xs xs = true
      apply listEqWith_diag
      intro u hu
      have hs := J.sizeList_mem xs u hu
      have hlt := size_arr_mem xs u hu
      rw [eqbF_congr n u (by omega) u (J.sizeList xs) (J.size u) (by omega)
        (by omega)]
      apply ih u (by omega)
      rw [wfb_arr] at hwf
      exact (List.all_eq_true.mp hwf) u hu
    | obj kvs =>
      rw [J.eqb, show J.size (J.obj kvs) = J.sizeObj kvs + 1 from by
        simp only [J.size]; omega]
      show (kvs.length == kvs.length && objInWith (eqbF (J.sizeObj kvs)) kvs kvs)
        = true
      rw [wfb_obj, Bool.and_eq_true] at hwf
      rw [Bool.and_eq_true]
      refine ⟨by simp, ?_⟩
      apply objInWith_diag _ _ hwf.1
      intro kv hkv
      have hs := J.sizeObj_mem kvs kv hkv
      have hlt := size_obj_mem kvs kv hkv
      rw [eqbF_congr n kv.2 (by omega) kv.2 (J.sizeObj kvs) (J.size kv.2)
        (by omega) (by omega)]
      apply ih kv.2 (by omega)
      exact (List.all_eq_true.mp hwf.2) kv hkv

/-- Python `==` is reflexive on well-formed JSON values. -/
theorem J.eqb_refl (x : J) (h : J.wfb x = true) : J.eqb x x = true :=
  eqb_refl_aux (J.size x) x le_rfl h

theorem containsKey_pyInsert_iff {α : Type} (d : List (String × α)) (k k' : String)
    (v : α) : containsKey (pyInsert d k v) k' = true ↔
      (containsKey d k' = true ∨ k' = k) := by
  rw [containsKey_iff_mem_pyKeys, containsKey_iff_mem_pyKeys]
  by_cases hm : k ∈ pyKeys d
  · rw [pyKeys_pyInsert_mem d k v hm]
    constructor
    · exact Or.inl
    · rintro (h | h)
      · exact h
      · exact h ▸ hm
  · rw [pyKeys_pyInsert_not_mem d k v hm]
    simp

/-! ### The Energy dashboard merge (`_read_modify_write`) -/

/-- The state of `.storage/energy` as seen by `_read_modify_write`:
missing, unreadable (OSError), invalid JSON, blank text, or parsed JSON. -/
inductive StoreFile where
  | absent
  | osErr
  | parseErr
  | blank
  | json (j : J)

def fileExistsb : StoreFile → Bool
  | .absent => false
  | _ => true

/-- Reading and parsing the existing store: `none` aborts the step
(read error or invalid JSON); otherwise the top-level dict (`{}` for a
missing or blank file, or a non-dict document). -/
def existingOf : StoreFile → Option (List (String × J))
  | .osErr => Option.none
  | .parseErr => Option.none
  | .json (J.obj kvs) => some kvs
  | .json _ => some []
  | .absent => some []
  | .blank => some []

/-- `template_data.get(k, [])` etc.: lookup with a default. -/
def jGetD (d : List (String × J)) (k : String) (dflt : J) : J :=
  match pyLookup d k with
  | some v => v
  | Option.none => dflt

/-- `existing.get("data")` when it is a dict, else `{}`. -/
def currentDataOf (existing : List (String × J)) : List (String × J) :=
  match pyLookup existing "data" with
  | some (J.obj kvs) => kvs
  | _ => []

/-- The `energy_sources` replacement: applied only when the template's
`energy_sources` is a list. -/
def ndEsOf (template_data current_data : List (String × J)) :
    List (String × J) :=
  match pyLookup template_data "energy_sources" with
  | some (J.arr es) => pyInsert current_data "energy_sources" (J.arr es)
  | _ => current_data

/-- The construction of `new_data`: replace `energy_sources` with the
template's when that is a list, then fill `device_consumption` and
`device_consumption_water` only if absent. -/
def newDataOf (template_data current_data : List (String × J)) :
    List (String × J) :=
  let nd₁ := ndEsOf template_data current_data
  let nd₂ := if containsKey nd₁ "device_consumption" then nd₁
    else pyInsert nd₁ "device_consumption"
      (jGetD template_data "device_consumption" (J.arr []))
  if containsKey nd₂ "device_consumption_water" then nd₂
  else pyInsert nd₂ "device_consumption_water"
    (jGetD template_data "device_consumption_water" (J.arr []))

/-- The construction of `out`: copy the existing store, default `version` to
1 and `minor_version` to 2 when absent, set `key` and `data`. -/
def outOf (existing new_data : List (String × J)) : List (String × J) :=
  let o₁ := if containsKey existing "version" then existing
    else pyInsert existing "version" (J.num 1)
  let o₂ := if containsKey o₁ "minor_version" then o₁
    else pyInsert o₁ "minor_version" (J.num 2)
  pyInsert (pyInsert o₂ "key" (J.str "energy")) "data" (J.obj new_data)

/-- `_read_modify_write`: `some out` when the merged store is written,
`none` when the step aborts or is skipped (mkdir failure, read failure,
invalid JSON, no change with the file already present, or a write failure).
The best-effort backup copy has no effect on the written store. -/
def _read_modify_write (mkdir_ok write_ok : Bool)
    (template_data : List (String × J)) (file : StoreFile) : Option J :=
  if !mkdir_ok then Option.none
  else
    match existingOf file with
    | Option.none => Option.none
    | some existing =>
      let current_data := currentDataOf existing
      let new_data := newDataOf template_data current_data
      if J.eqb (J.obj new_data) (J.obj current_data) && fileExistsb file then
        Option.none
      else if write_ok then some (J.obj (outOf existing new_data))
      else Option.none

/-- Lookup a key in a JSON object value. -/
def jObjLookup (j : J) (k : String) : Option J :=
  match j with
  | .obj kvs => pyLookup kvs k
  | _ => Option.none

/-! ### Lemmas about the merge construction -/

theorem ndEsOf_lookup_other (t c : List (String × J)) (k : String)
    (hk : k ≠ "energy_sources") : pyLookup (ndEsOf t c) k = pyLookup c k := by
  unfold ndEsOf
  cases hT : pyLookup t "energy_sources" with
  | none => rfl
  | some v =>
    cases v with
    | arr es => exact pyLookup_pyInsert_other c "energy_sources" k (J.arr es) hk
    | null => rfl
    | bool b => rfl
    | num q => rfl
    | str s => rfl
    | obj kvs => rfl

theorem ndEsOf_contains_other (t c : List (String × J)) (k : String)
    (hk : k ≠ "energy_sources") : containsKey (ndEsOf t c) k = containsKey c k := by
  cases hc : containsKey c k with
  | true =>
    unfold ndEsOf
    cases hT : pyLookup t "energy_sources" with
    | none => exact hc
    | some v =>
      cases v with
      | arr es =>
        rw [(containsKey_pyInsert_iff c "energy_sources" k (J.arr es)).mpr
          (Or.inl hc)]
      | null => exact hc
      | bool b => exact hc
      | num q => exact hc
      | str s => exact hc
      | obj kvs => exact hc
  | false =>
    unfold ndEsOf
    cases hT : pyLookup t "energy_sources" with
    | none => exact hc
    | some v =>
      cases v with
      | arr es =>
        cases hc₂ : containsKey (pyInsert c "energy_sources" (J.arr es)) k with
        | false => rfl
        | true =>
          rcases (containsKey_pyInsert_iff c "energy_sources" k (J.arr es)).mp hc₂
            with h | h
          · rw [h] at hc; cases hc
          · exact absurd h hk
      | null => exact hc
      | bool b => exact hc
      | num q => exact hc
      | str s => exact hc
      | obj kvs => exact hc

theorem ndEsOf_es (t c : List (String × J)) (es : List J)
    (hes : pyLookup t "energy_sources" = some (J.arr es)) :
    pyLookup (ndEsOf t c) "energy_sources" = some (J.arr es) := by
  unfold ndEsOf
  rw [hes]
  exact pyLookup_pyInsert_self c "energy_sources" (J.arr es)

theorem newDataOf_es (t c : List (String × J)) (es : List J)
    (hes : pyLookup t "energy_sources" = some (J.arr es)) :
    pyLookup (newDataOf t c) "energy_sources" = some (J.arr es) := by
  unfold newDataOf
  have h₁ := ndEsOf_es t c es hes
  by_cases h₂ : containsKey (ndEsOf t c) "device_consumption" = true
  · simp only [h₂, if_true]
    by_cases h₃ : containsKey (ndEsOf t c) "device_consumption_water" = true
    · simp only [h₃, if_true]
      exact h₁
    · simp only [eq_false_of_ne_true h₃, Bool.false_eq_true, if_false]
      rw [pyLookup_pyInsert_other _ _ _ _ (by decide)]
      exact h₁
  · simp only [eq_false_of_ne_true h₂, Bool.false_eq_true, if_false]
    have h₄ : pyLookup (pyInsert (ndEsOf t c) "device_consumption"
        (jGetD t "device_consumption" (J.arr []))) "energy_sources" =
        some (J.arr es) := by
      rw [pyLookup_pyInsert_other _ _ _ _ (by decide)]
      exact h₁
    by_cases h₃ : containsKey (pyInsert (ndEsOf t c) "device_consumption"
        (jGetD t "device_consumption" (J.arr []))) "device_consumption_water" = true
    · simp only [h₃, if_true]
      exact h₄
    · simp only [eq_false_of_ne_true h₃, Bool.false_eq_true, if_false]
      rw [pyLookup_pyInsert_other _ _ _ _ (by decide)]
      exact h₄

theorem newDataOf_dc (t c : List (String × J)) :
    (containsKey c "device_consumption" = true →
      pyLookup (newDataOf t c) "device_consumption" =
        pyLookup c "device_consumption") ∧
    (containsKey c "device_consumption" = false →
      pyLookup (newDataOf t c) "device_consumption" =
        some (jGetD t "device_consumption" (J.arr []))) := by
  unfold newDataOf
  have hco := ndEsOf_contains_other t c "device_consumption" (by decide)
  have hlo := ndEsOf_lookup_other t c "device_consumption" (by decide)
  constructor
  · intro hc
    rw [hc] at hco
    simp only [hco, if_true]
    by_cases h₃ : containsKey (ndEsOf t c) "device_consumption_water" = true
    · simp only [h₃, if_true]
      exact hlo
    · simp only [eq_false_of_ne_true h₃, Bool.false_eq_true, if_false]
      rw [pyLookup_pyInsert_other _ _ _ _ (by decide)]
      exact hlo
  · intro hc
    rw [hc] at hco
    simp only [hco, Bool.false_eq_true, if_false]
    have h₄ : pyLookup (pyInsert (ndEsOf t c) "device_consumption"
        (jGetD t "device_consumption" (J.arr []))) "device_consumption" =
        some (jGetD t "device_consumption" (J.arr [])) :=
      pyLookup_pyInsert_self _ _ _
    by_cases h₃ : containsKey (pyInsert (ndEsOf t c) "device_consumption"
        (jGetD t "device_consumption" (J.arr []))) "device_consumption_water" = true
    · simp only [h₃, if_true]
      exact h₄
    · simp only [eq_false_of_ne_true h₃, Bool.false_eq_true, if_false]
      rw [pyLookup_pyInsert_other _ _ _ _ (by decide)]
      exact h₄

theorem newDataOf_water (t c : List (String × J)) :
    (containsKey c "device_consumption_water" = true →
      pyLookup (newDataOf t c) "device_consumption_water" =
        pyLookup c "device_consumption_water") ∧
    (containsKey c "device_consumption_water" = false →
      pyLookup (newDataOf t c) "device_consumption_water" =
        some (jGetD t "device_consumption_water" (J.arr []))) := by
  unfold newDataOf
  have hco := ndEsOf_contains_other t c "device_consumption_water" (by decide)
  have hlo := ndEsOf_lookup_other t c "device_consumption_water" (by decide)
  constructor
  · intro hc
    rw [hc] at hco
    by_cases h₂ : containsKey (ndEsOf t c) "device_consumption" = true
    · simp only [h₂, if_true, hco, if_true]
      exact hlo
    · simp only [eq_false_of_ne_true h₂, Bool.false_eq_true, if_false]
      have hco₂ : containsKey (pyInsert (ndEsOf t c) "device_consumption"
          (jGetD t "device_consumption" (J.arr []))) "device_consumption_water"
          = true :=
        (containsKey_pyInsert_iff _ _ _ _).mpr (Or.inl hco)
      simp only [hco₂, if_true]
      rw [pyLookup_pyInsert_other _ _ _ _ (by decide)]
      exact hlo
  · intro hc
    rw [hc] at hco
    by_cases h₂ : containsKey (ndEsOf t c) "device_consumption" = true
    · simp only [h₂, if_true, hco, Bool.false_eq_true, if_false]
      exact pyLookup_pyInsert_self _ _ _
    · simp only [eq_false_of_ne_true h₂, Bool.false_eq_true, if_false]
      have hco₂ : containsKey (pyInsert (ndEsOf t c) "device_consumption"
          (jGetD t "device_consumption" (J.arr []))) "device_consumption_water"
          = false := by
        cases hc₃ : containsKey (pyInsert (ndEsOf t c) "device_consumption"
            (jGetD t "device_consumption" (J.arr []))) "device_consumption_water"
          with
        | false => rfl
        | true =>
          rcases (containsKey_pyInsert_iff _ _ _ _).mp hc₃ with h | h
          · rw [h] at hco; cases hco
          · exact absurd h (by decide)
      simp only [hco₂, Bool.false_eq_true, if_false]
      exact pyLookup_pyInsert_self _ _ _

/-- Characterisation of lookups in the written store outside `data`/`key`. -/
theorem outOf_lookup (existing nd : List (String × J)) (k : String)
    (h1 : k ≠ "data") (h2 : k ≠ "key") :
    pyLookup (outOf existing nd) k =
      (if containsKey existing k then pyLookup existing k
       else if k = "version" then some (J.num 1)
       else if k = "minor_version" then some (J.num 2)
       else Option.none) := by
  unfold outOf
  rw [pyLookup_pyInsert_other _ _ _ _ h1, pyLookup_pyInsert_other _ _ _ _ h2]
  by_cases hv : containsKey existing "version" = true
  · simp only [hv, if_true]
    by_cases hm : containsKey existing "minor_version" = true
    · simp only [hm, if_true]
      by_cases hck : containsKey existing k = true
      · simp [hck]
      · simp only [eq_false_of_ne_true hck, Bool.false_eq_true, if_false]
        rw [(pyLookup_eq_none_iff existing k).mpr
          (fun hmem => hck ((containsKey_iff_mem_pyKeys existing k).mpr hmem))]
        by_cases hkv : k = "version"
        · rw [hkv] at hck; exact absurd hv hck
        · by_cases hkm : k = "minor_version"
          · rw [hkm] at hck; exact absurd hm hck
          · simp [hkv, hkm]
    · simp only [eq_false_of_ne_true hm, Bool.false_eq_true, if_false]
      by_cases hkm : k = "minor_version"
      · subst hkm
        rw [pyLookup_pyInsert_self]
        simp only [eq_false_of_ne_true hm, Bool.false_eq_true, if_false]
        simp
      · rw [pyLookup_pyInsert_other _ _ _ _ hkm]
        by_cases hck : containsKey existing k = true
        · simp [hck]
        · simp only [eq_false_of_ne_true hck, Bool.false_eq_true, if_false]
          rw [(pyLookup_eq_none_iff existing k).mpr
            (fun hmem => hck ((containsKey_iff_mem_pyKeys existing k).mpr hmem))]
          by_cases hkv : k = "version"
          · rw [hkv] at hck; exact absurd hv hck
          · simp [hkv, hkm]
  · simp only [eq_false_of_ne_true hv, Bool.false_eq_true, if_false]
    by_cases hkv : k = "version"
    · subst hkv
      have hcm : containsKey (pyInsert existing "version" (J.num 1))
          "minor_version" = containsKey existing "minor_version" := by
        cases hc : containsKey existing "minor_version" with
        | true => exact (containsKey_pyInsert_iff _ _ _ _).mpr (Or.inl hc)
        | false =>
          cases hc₂ : containsKey (pyInsert existing "version" (J.num 1))
              "minor_version" with
          | false => rfl
          | true =>
            rcases (containsKey_pyInsert_iff _ _ _ _).mp hc₂ with h | h
            · rw [h] at hc; cases hc
            · exact absurd h (by decide)
      by_cases hm : containsKey existing "minor_version" = true
      · rw [hcm, hm]
        simp only [if_true]
        rw [pyLookup_pyInsert_self]
        simp only [eq_false_of_ne_true hv, Bool.false_eq_true, if_false]
      · rw [hcm, eq_false_of_ne_true hm]
        simp only [Bool.false_eq_true, if_false]
        rw [pyLookup_pyInsert_other _ _ _ _ (by decide),
          pyLookup_pyInsert_self]
        simp only [eq_false_of_ne_true hv, Bool.false_eq_true, if_false]
        simp
    · have hlk : pyLookup (pyInsert existing "version" (J.num 1)) k =
          pyLookup existing k := pyLookup_pyInsert_other _ _ _ _ hkv
      have hck₂ : containsKey (pyInsert existing "version" (J.num 1)) k =
          containsKey existing k := by
        cases hc : containsKey existing k with
        | true => exact (containsKey_pyInsert_iff _ _ _ _).mpr (Or.inl hc)
        | false =>
          cases hc₂ : containsKey (pyInsert existing "version" (J.num 1)) k with
          | false => rfl
          | true =>
            rcases (containsKey_pyInsert_iff _ _ _ _).mp hc₂ with h | h
            · rw [h] at hc; cases hc
            · exact absurd h hkv
      have hcm : containsKey (pyInsert existing "version" (J.num 1))
          "minor_version" = containsKey existing "minor_version" := by
        cases hc : containsKey existing "minor_version" with
        | true => exact (containsKey_pyInsert_iff _ _ _ _).mpr (Or.inl hc)
        | false =>
          cases hc₂ : containsKey (pyInsert existing "version" (J.num 1))
              "minor_version" with
          | false => rfl
          | true =>
            rcases (containsKey_pyInsert_iff _ _ _ _).mp hc₂ with h | h
            · rw [h] at hc; cases hc
            · exact absurd h (by decide)
      by_cases hm : containsKey existing "minor_version" = true
      · rw [hcm, hm]
        simp only [if_true]
        rw [hlk]
        by_cases hck : containsKey existing k = true
        · simp [hck]
        · simp only [eq_false_of_ne_true hck, Bool.false_eq_true, if_false]
          rw [(pyLookup_eq_none_iff existing k).mpr
            (fun hmem => hck ((containsKey_iff_mem_pyKeys existing k).mpr hmem))]
          by_cases hkm : k = "minor_version"
          · rw [hkm] at hck; exact absurd hm hck
          · simp [hkv, hkm]
      · rw [hcm, eq_false_of_ne_true hm]
        simp only [Bool.false_eq_true, if_false]
        by_cases hkm : k = "minor_version"
        · subst hkm
          rw [pyLookup_pyInsert_self]
          simp only [eq_false_of_ne_true hm, Bool.false_eq_true, if_false]
          simp [hkv]
        · rw [pyLookup_pyInsert_other _ _ _ _ hkm, hlk]
          by_cases hck : containsKey existing k = true
          · simp [hck]
          · simp only [eq_false_of_ne_true hck, Bool.false_eq_true, if_false]
            rw [(pyLookup_eq_none_iff existing k).mpr
              (fun hmem => hck ((containsKey_iff_mem_pyKeys existing k).mpr hmem))]
            simp [hkv, hkm]

theorem outOf_data (existing nd : List (String × J)) :
    pyLookup (outOf existing nd) "data" = some (J.obj nd) :=
  pyLookup_pyInsert_self _ _ _

theorem outOf_key (existing nd : List (String × J)) :
    pyLookup (outOf existing nd) "key" = some (J.str "energy") := by
  unfold outOf
  rw [pyLookup_pyInsert_other _ _ _ _ (by decide), pyLookup_pyInsert_self]

/-- Any successful write of `_read_modify_write` writes exactly the merged
object built by `outOf`/`newDataOf`. -/
theorem rmw_some (mkdir_ok write_ok : Bool) (t : List (String × J))
    (file : StoreFile) (out : J)
    (hw : _read_modify_write mkdir_ok write_ok t file = some out) :
    ∃ existing, existingOf file = some existing ∧
      out = J.obj (outOf existing (newDataOf t (currentDataOf existing))) := by
  rw [_read_modify_write] at hw
  cases mkdir_ok with
  | false => simp at hw
  | true =>
    simp only [Bool.not_true, Bool.false_eq_true, if_false] at hw
    cases he : existingOf file with
    | none => rw [he] at hw; cases hw
    | some existing =>
      rw [he] at hw
      dsimp only at hw
      refine ⟨existing, rfl, ?_⟩
      by_cases hskip : (J.eqb (J.obj (newDataOf t (currentDataOf existing)))
          (J.obj (currentDataOf existing)) && fileExistsb file) = true
      · rw [if_pos hskip] at hw; cases hw
      · rw [if_neg hskip] at hw
        cases write_ok with
        | false => simp at hw
        | true =>
          simp only [if_true] at hw
          exact (Option.some.injEq .. ▸ hw).symm

/-! ## Claims C4 and C5 (the Energy dashboard merge) -/

/-- Claim C4: given an existing store and a readable template, the written
store's `data.energy_sources` equals the template's `energy_sources`
(replaced wholesale); `data.device_consumption` and
`data.device_consumption_water` keep their existing values whenever the key
is already present and are filled from the template only when absent; a
missing `version` defaults to 1 and a missing `minor_version` defaults
to 2. -/
theorem claim_C4 (mkdir_ok write_ok : Bool)
    (template_data kvs : List (String × J)) (es : List J) (out : J)
    (hes : pyLookup template_data "energy_sources" = some (J.arr es))
    (hw : _read_modify_write mkdir_ok write_ok template_data
      (StoreFile.json (J.obj kvs)) = some out) :
    ∃ nd : List (String × J),
      jObjLookup out "data" = some (J.obj nd) ∧
      pyLookup nd "energy_sources" = some (J.arr es) ∧
      (containsKey (currentDataOf kvs) "device_consumption" = true →
        pyLookup nd "device_consumption" =
          pyLookup (currentDataOf kvs) "device_consumption") ∧
      (containsKey (currentDataOf kvs) "device_consumption" = false →
        pyLookup nd "device_consumption" =
          some (jGetD template_data "device_consumption" (J.arr []))) ∧
      (containsKey (currentDataOf kvs) "device_consumption_water" = true →
        pyLookup nd "device_consumption_water" =
          pyLookup (currentDataOf kvs) "device_consumption_water") ∧
      (containsKey (currentDataOf kvs) "device_consumption_water" = false →
        pyLookup nd "device_consumption_water" =
          some (jGetD template_data "device_consumption_water" (J.arr []))) ∧
      (containsKey kvs "version" = false →
        jObjLookup out "version" = some (J.num 1)) ∧
      (containsKey kvs "minor_version" = false →
        jObjLookup out "minor_version" = some (J.num 2)) := by
  obtain ⟨existing, he, hout⟩ := rmw_some _ _ _ _ _ hw
  simp only [existingOf, Option.some.injEq] at he
  subst he
  subst hout
  refine ⟨newDataOf template_data (currentDataOf kvs),
    outOf_data _ _, newDataOf_es _ _ es hes,
    (newDataOf_dc _ _).1, (newDataOf_dc _ _).2,
    (newDataOf_water _ _).1, (newDataOf_water _ _).2, ?_, ?_⟩
  · intro hv
    show pyLookup (outOf kvs _) "version" = some (J.num 1)
    rw [outOf_lookup _ _ _ (by decide) (by decide), hv]
    simp
  · intro hm
    show pyLookup (outOf kvs _) "minor_version" = some (J.num 2)
    rw [outOf_lookup _ _ _ (by decide) (by decide), hm]
    simp

/-- The template of the specification's Energy-merge example, with a
`device_consumption_water` default. -/
def c4Template : List (String × J) :=
  [("energy_sources", J.arr [J.obj [("type", J.str "solar")]]),
   ("device_consumption", J.arr []),
   ("device_consumption_water", J.arr [])]

/-- The existing store of the specification's Energy-merge example. -/
def c4Store : List (String × J) :=
  [("version", J.num 1),
   ("data", J.obj [("energy_sources", J.arr []),
     ("device_consumption", J.arr [J.obj [("x", J.num 1)]])])]

/-- The store written by the merge on the example. -/
def c4Out : J :=
  J.obj (outOf c4Store (newDataOf c4Template (currentDataOf c4Store)))

theorem claim_C4_witness :
    pyLookup c4Template "energy_sources"
      = some (J.arr [J.obj [("type", J.str "solar")]]) ∧
    _read_modify_write true true c4Template (StoreFile.json (J.obj c4Store))
      = some c4Out ∧
    (∃ nd : List (String × J),
      jObjLookup c4Out "data" = some (J.obj nd) ∧
      pyLookup nd "energy_sources"
        = some (J.arr [J.obj [("type", J.str "solar")]]) ∧
      (containsKey (currentDataOf c4Store) "device_consumption" = true →
        pyLookup nd "device_consumption" =
          pyLookup (currentDataOf c4Store) "device_consumption") ∧
      (containsKey (currentDataOf c4Store) "device_consumption" = false →
        pyLookup nd "device_consumption" =
          some (jGetD c4Template "device_consumption" (J.arr []))) ∧
      (containsKey (currentDataOf c4Store) "device_consumption_water" = true →
        pyLookup nd "device_consumption_water" =
          pyLookup (currentDataOf c4Store) "device_consumption_water") ∧
      (containsKey (currentDataOf c4Store) "device_consumption_water" = false →
        pyLookup nd "device_consumption_water" =
          some (jGetD c4Template "device_consumption_water" (J.arr []))) ∧
      (containsKey c4Store "version" = false →
        jObjLookup c4Out "version" = some (J.num 1)) ∧
      (containsKey c4Store "minor_version" = false →
        jObjLookup c4Out "minor_version" = some (J.num 2))) :=
  ⟨rfl, rfl, claim_C4 true true c4Template c4Store _ c4Out rfl rfl⟩

/-- Claim C5, counterexample: the code always sets the top-level `key`
field to `"energy"`, so an existing store whose `key` differs is not
preserved, contradicting the claim that every top-level key other than
`data` keeps its prior value. -/
theorem claim_C5_counterexample :
    (_read_modify_write true true [("energy_sources", J.arr [])]
        (StoreFile.json (J.obj [("key", J.str "custom")]))).map
      (fun out => jObjLookup out "key") = some (some (J.str "energy")) ∧
    pyLookup [("key", J.str "custom")] "key" = some (J.str "custom") ∧
    ("energy" : String) ≠ "custom" :=
  ⟨rfl, rfl, by decide⟩

/-- Claim C5, amended: for every existing store (a JSON object), every
top-level key other than `data` and `key` is preserved with its prior value
in the written output; `key` is always set to `"energy"`; `version` and
`minor_version` are only defaulted (to 1 and 2) when absent, never changed
when present. -/
theorem claim_C5 (mkdir_ok write_ok : Bool)
    (template_data kvs : List (String × J)) (out : J)
    (hw : _read_modify_write mkdir_ok write_ok template_data
      (StoreFile.json (J.obj kvs)) = some out) :
    (∀ k, k ≠ "data" → k ≠ "key" →
      (containsKey kvs k = true → jObjLookup out k = pyLookup kvs k) ∧
      (containsKey kvs k = false →
        jObjLookup out k =
          (if k = "version" then some (J.num 1)
           else if k = "minor_version" then some (J.num 2)
           else Option.none))) ∧
    jObjLookup out "key" = some (J.str "energy") := by
  obtain ⟨existing, he, hout⟩ := rmw_some _ _ _ _ _ hw
  simp only [existingOf, Option.some.injEq] at he
  subst he
  subst hout
  constructor
  · intro k h1 h2
    constructor
    · intro hc
      show pyLookup (outOf kvs _) k = _
      rw [outOf_lookup _ _ _ h1 h2, hc]
      simp
    · intro hc
      show pyLookup (outOf kvs _) k = _
      rw [outOf_lookup _ _ _ h1 h2, hc]
      simp
  · exact outOf_key _ _

/-- A store with a custom top-level key, for the C5 witness. -/
def c5Store : List (String × J) :=
  [("version", J.num 7), ("custom_top", J.bool true)]

/-- The store written by the merge on the C5 witness input. -/
def c5Out : J :=
  J.obj (outOf c5Store (newDataOf [("energy_sources", J.arr [])]
    (currentDataOf c5Store)))

/-! ## Claim C7 (each provisioning routine mutates at most once)

Three routines are involved.  `_async_ensure_automations` and
`_async_ensure_storage_dashboards` are guarded by runtime flags stored in
`domain_data` and set before any file work; the dashboard work of the
latter goes through Home Assistant's Lovelace collection APIs and is
abstracted as a state transformer `body`.  The energy merge
`_read_modify_write` has no flag: its idempotence is content-based (the
`new_data == current_data and storage_path.exists()` skip). -/

/-- `_async_ensure_automations`: check the guard flag, set it, check that the
shipped file exists and yields a non-empty list, then run the merge.  Returns
the updated flag and the write performed (`some` = written content). -/
def _async_ensure_automations (automations_imported : Bool)
    (shipped_exists : Bool) (shippedFile : FileRead) (config_exists : Bool)
    (configFile : FileRead) (write_ok : Bool) :
    Bool × Option (List PyDict) :=
  if automations_imported then (automations_imported, Option.none)
  else
    if !shipped_exists then (true, Option.none)
    else
      let shipped := _load_yaml_list shippedFile
      if shipped.isEmpty then (true, Option.none)
      else (true, _read_merge_write shipped config_exists configFile write_ok)

/-- `_async_ensure_storage_dashboards`: failing Lovelace imports and a
not-yet-ready Lovelace store return early (the latter only schedules a retry,
setting `lovelace_retry_scheduled`); then the guard flag
`storage_dashboards_imported` is checked and set before the dashboard work
`body`.  Returns (flag, retry flag, dashboard state, changed). -/
def _async_ensure_storage_dashboards {σ : Type} (imports_ok lovelace_ready
    storage_dashboards_imported lovelace_retry_scheduled : Bool)
    (body : σ → σ × Bool) (st : σ) : Bool × Bool × σ × Bool :=
  if !imports_ok then
    (storage_dashboards_imported, lovelace_retry_scheduled, st, false)
  else if !lovelace_ready then
    (storage_dashboards_imported, true, st, false)
  else if storage_dashboards_imported then
    (storage_dashboards_imported, lovelace_retry_scheduled, st, false)
  else
    let r := body st
    (true, lovelace_retry_scheduled, r.1, r.2)

theorem ensure_automations_flag (f se : Bool) (sf : FileRead) (ce : Bool)
    (cf : FileRead) (w : Bool) :
    (_async_ensure_automations f se sf ce cf w).1 = true := by
  unfold _async_ensure_automations
  cases f <;> cases se <;> cases h : (_load_yaml_list sf).isEmpty <;> simp [h]

theorem ensure_dashboards_flag {σ : Type} (io lr f rs : Bool)
    (body : σ → σ × Bool) (st : σ)
    (h : (_async_ensure_storage_dashboards io lr f rs body st).2.2.1 ≠ st) :
    (_async_ensure_storage_dashboards io lr f rs body st).1 = true := by
  cases io with
  | false => exact absurd rfl h
  | true =>
    cases lr with
    | false => exact absurd rfl h
    | true =>
      cases f with
      | true => rfl
      | false => rfl

theorem ensure_dashboards_true_frame {σ : Type} (io lr rs : Bool)
    (body : σ → σ × Bool) (st : σ) :
    (_async_ensure_storage_dashboards io lr true rs body st).2.2.1 = st ∧
    (_async_ensure_storage_dashboards io lr true rs body st).2.2.2 = false := by
  cases io <;> cases lr <;> exact ⟨rfl, rfl⟩

/-! ### Well-formedness propagation for the energy merge -/

theorem mem_pyInsert {α : Type} (d : List (String × α)) (k : String) (v : α)
    (kv : String × α) (h : kv ∈ pyInsert d k v) : kv ∈ d ∨ kv = (k, v) := by
  induction d with
  | nil =>
    simp only [pyInsert, List.mem_singleton] at h
    exact Or.inr h
  | cons kv₂ rest ih =>
    obtain ⟨k₂, v₂⟩ := kv₂
    by_cases h₂ : k₂ = k
    · rw [pyInsert, if_pos h₂] at h
      rcases List.mem_cons.mp h with h | h
      · exact Or.inr h
      · exact Or.inl (List.mem_cons_of_mem _ h)
    · rw [pyInsert, if_neg h₂] at h
      rcases List.mem_cons.mp h with h | h
      · exact Or.inl (h ▸ List.mem_cons_self _ _)
      · rcases ih h with h | h
        · exact Or.inl (List.mem_cons_of_mem _ h)
        · exact Or.inr h

theorem wfb_pyInsert (l : List (String × J)) (k : String) (v : J)
    (hl : J.wfb (J.obj l) = true) (hv : J.wfb v = true) :
    J.wfb (J.obj (pyInsert l k v)) = true := by
  rw [wfb_obj, Bool.and_eq_true] at hl ⊢
  obtain ⟨hn, ha⟩ := hl
  refine ⟨?_, ?_⟩
  · rw [nodupKeysb_iff] at hn ⊢
    exact pyKeys_pyInsert_nodup l k v hn
  · rw [List.all_eq_true] at ha ⊢
    intro kv hkv
    rcases mem_pyInsert l k v kv hkv with h | h
    · exact ha kv h
    · rw [h]; exact hv

theorem wfb_lookup (l : List (String × J)) (k : String) (v : J)
    (hl : J.wfb (J.obj l) = true) (h : pyLookup l k = some v) :
    J.wfb v = true := by
  rw [wfb_obj, Bool.and_eq_true] at hl
  exact (List.all_eq_true.mp hl.2) (k, v) (pyLookup_mem l k v h)

theorem wfb_currentDataOf (kvs : List (String × J))
    (h : J.wfb (J.obj kvs) = true) :
    J.wfb (J.obj (currentDataOf kvs)) = true := by
  unfold currentDataOf
  cases hd : pyLookup kvs "data" with
  | none => decide
  | some v =>
    cases v with
    | obj kvs₂ => exact wfb_lookup kvs "data" (J.obj kvs₂) h hd
    | null => rfl
    | bool b => rfl
    | num q => rfl
    | str s => rfl
    | arr xs => rfl

theorem wfb_jGetD (t : List (String × J)) (k : String)
    (ht : J.wfb (J.obj t) = true) :
    J.wfb (jGetD t k (J.arr [])) = true := by
  unfold jGetD
  cases hd : pyLookup t k with
  | none => decide
  | some v => exact wfb_lookup t k v ht hd

theorem wfb_ndEsOf (t c : List (String × J))
    (ht : J.wfb (J.obj t) = true) (hc : J.wfb (J.obj c) = true) :
    J.wfb (J.obj (ndEsOf t c)) = true := by
  unfold ndEsOf
  cases hT : pyLookup t "energy_sources" with
  | none => exact hc
  | some v =>
    cases v with
    | arr es =>
      exact wfb_pyInsert c "energy_sources" (J.arr es) hc
        (wfb_lookup t "energy_sources" (J.arr es) ht hT)
    | null => exact hc
    | bool b => exact hc
    | num q => exact hc
    | str s => exact hc
    | obj kvs => exact hc

theorem wfb_newDataOf (t c : List (String × J))
    (ht : J.wfb (J.obj t) = true) (hc : J.wfb (J.obj c) = true) :
    J.wfb (J.obj (newDataOf t c)) = true := by
  unfold newDataOf
  have h₁ := wfb_ndEsOf t c ht hc
  have h₂ : ∀ nd : List (String × J), J.wfb (J.obj nd) = true → ∀ k : String,
      J.wfb (J.obj (if containsKey nd k then nd
        else pyInsert nd k (jGetD t k (J.arr [])))) = true := by
    intro nd hnd k
    by_cases hk : containsKey nd k = true
    · simp only [hk, if_true]; exact hnd
    · simp only [eq_false_of_ne_true hk, Bool.false_eq_true, if_false]
      exact wfb_pyInsert nd k _ hnd (wfb_jGetD t k ht)
  exact h₂ _ (h₂ _ h₁ "device_consumption") "device_consumption_water"

/-! ### Idempotence of the energy merge on its own output -/

theorem containsKey_of_lookup_some {α : Type} (d : List (String × α))
    (k : String) (v : α) (h : pyLookup d k = some v) :
    containsKey d k = true := by
  rw [containsKey_iff_mem_pyKeys]
  by_contra hm
  have h₀ := (pyLookup_eq_none_iff d k).mpr hm
  rw [h] at h₀
  cases h₀

theorem lookup_isSome_of_containsKey {α : Type} (d : List (String × α))
    (k : String) (h : containsKey d k = true) :
    ∃ v, pyLookup d k = some v := by
  cases hl : pyLookup d k with
  | some v => exact ⟨v, rfl⟩
  | none =>
    rw [pyLookup_eq_none_iff] at hl
    exact absurd ((containsKey_iff_mem_pyKeys d k).mp h) hl

theorem newDataOf_contains_dc (t c : List (String × J)) :
    containsKey (newDataOf t c) "device_consumption" = true := by
  by_cases hk : containsKey c "device_consumption" = true
  · obtain ⟨v, hv⟩ := lookup_isSome_of_containsKey c _ hk
    exact containsKey_of_lookup_some _ _ v (((newDataOf_dc t c).1 hk).trans hv)
  · exact containsKey_of_lookup_some _ _ _
      ((newDataOf_dc t c).2 (eq_false_of_ne_true hk))

theorem newDataOf_contains_water (t c : List (String × J)) :
    containsKey (newDataOf t c) "device_consumption_water" = true := by
  by_cases hk : containsKey c "device_consumption_water" = true
  · obtain ⟨v, hv⟩ := lookup_isSome_of_containsKey c _ hk
    exact containsKey_of_lookup_some _ _ v
      (((newDataOf_water t c).1 hk).trans hv)
  · exact containsKey_of_lookup_some _ _ _
      ((newDataOf_water t c).2 (eq_false_of_ne_true hk))

theorem newDataOf_eq_of_contains (t c : List (String × J))
    (h₁ : ndEsOf t c = c)
    (h₂ : containsKey c "device_consumption" = true)
    (h₃ : containsKey c "device_consumption_water" = true) :
    newDataOf t c = c := by
  unfold newDataOf
  simp [h₁, h₂, h₃]

theorem newDataOf_idem (t c : List (String × J)) :
    newDataOf t (newDataOf t c) = newDataOf t c := by
  refine newDataOf_eq_of_contains t (newDataOf t c) ?_
    (newDataOf_contains_dc t c) (newDataOf_contains_water t c)
  unfold ndEsOf
  cases hT : pyLookup t "energy_sources" with
  | none => rfl
  | some v =>
    cases v with
    | arr es => exact pyInsert_eq_of_lookup _ _ _ (newDataOf_es t c es hT)
    | null => rfl
    | bool b => rfl
    | num q => rfl
    | str s => rfl
    | obj kvs => rfl

theorem wfb_existingOf (file : StoreFile) (existing : List (String × J))
    (hfile : ∀ j, file = StoreFile.json j → J.wfb j = true)
    (he : existingOf file = some existing) :
    J.wfb (J.obj existing) = true := by
  cases file with
  | osErr => simp [existingOf] at he
  | parseErr => simp [existingOf] at he
  | absent =>
    simp only [existingOf, Option.some.injEq] at he
    rw [← he]; decide
  | blank =>
    simp only [existingOf, Option.some.injEq] at he
    rw [← he]; decide
  | json j =>
    cases j with
    | obj kvs =>
      simp only [existingOf, Option.some.injEq] at he
      rw [← he]
      exact hfile (J.obj kvs) rfl
    | null => simp only [existingOf, Option.some.injEq] at he; rw [← he]; decide
    | bool b => simp only [existingOf, Option.some.injEq] at he; rw [← he]; decide
    | num q => simp only [existingOf, Option.some.injEq] at he; rw [← he]; decide
    | str s => simp only [existingOf, Option.some.injEq] at he; rw [← he]; decide
    | arr xs => simp only [existingOf, Option.some.injEq] at he; rw [← he]; decide

theorem currentDataOf_outOf (existing nd : List (String × J)) :
    currentDataOf (outOf existing nd) = nd := by
  unfold currentDataOf
  rw [outOf_data]

/-- Re-running the energy merge on the store it has just written performs no
write: the recomputed `new_data` equals the stored `data` and the file
exists, so the step is skipped (and a failed mkdir also writes nothing). -/
theorem rmw_idem (mk₁ w₁ mk₂ w₂ : Bool) (t : List (String × J))
    (file : StoreFile) (out : J)
    (ht : J.wfb (J.obj t) = true)
    (hfile : ∀ j, file = StoreFile.json j → J.wfb j = true)
    (hw : _read_modify_write mk₁ w₁ t file = some out) :
    _read_modify_write mk₂ w₂ t (StoreFile.json out) = Option.none := by
  obtain ⟨existing, he, hout⟩ := rmw_some mk₁ w₁ t file out hw
  have hex : J.wfb (J.obj existing) = true := wfb_existingOf file existing hfile he
  have hnd : J.wfb (J.obj (newDataOf t (currentDataOf existing))) = true :=
    wfb_newDataOf t _ ht (wfb_currentDataOf existing hex)
  subst hout
  rw [_read_modify_write]
  cases mk₂ with
  | false => rfl
  | true =>
    simp only [Bool.not_true, Bool.false_eq_true, if_false, existingOf]
    have hcond : (J.eqb
        (J.obj (newDataOf t (currentDataOf
          (outOf existing (newDataOf t (currentDataOf existing))))))
        (J.obj (currentDataOf
          (outOf existing (newDataOf t (currentDataOf existing))))) &&
        fileExistsb (StoreFile.json (J.obj
          (outOf existing (newDataOf t (currentDataOf existing)))))) = true := by
      rw [currentDataOf_outOf, newDataOf_idem, Bool.and_eq_true]
      exact ⟨J.eqb_refl _ hnd, rfl⟩
    rw [if_pos hcond]

/-- Claim C7: each provisioning routine (automations merge, energy dashboard
merge, storage dashboard import) performs its file mutation at most once per
process lifetime: if a first invocation mutated the file, a second
invocation — whatever environment it runs in — performs no mutation.  For
the automations and storage-dashboard routines this is enforced by the guard
flag the first invocation sets; for the energy merge it is content-based
(re-running on the store just written finds no change and skips the write;
the store and template are `json.loads` output, hence well-formed JSON). -/
theorem claim_C7 :
    (∀ (f se : Bool) (sf : FileRead) (ce : Bool) (cf : FileRead) (w : Bool)
       (written : List PyDict)
       (se₂ : Bool) (sf₂ : FileRead) (ce₂ : Bool) (cf₂ : FileRead) (w₂ : Bool),
       (_async_ensure_automations f se sf ce cf w).2 = some written →
       (_async_ensure_automations (_async_ensure_automations f se sf ce cf w).1
         se₂ sf₂ ce₂ cf₂ w₂).2 = Option.none) ∧
    (∀ (mk₁ w₁ mk₂ w₂ : Bool) (t : List (String × J)) (file : StoreFile)
       (out : J),
       J.wfb (J.obj t) = true →
       (∀ j, file = StoreFile.json j → J.wfb j = true) →
       _read_modify_write mk₁ w₁ t file = some out →
       _read_modify_write mk₂ w₂ t (StoreFile.json out) = Option.none) ∧
    (∀ (σ : Type) (io lr f rs : Bool) (body : σ → σ × Bool) (st : σ)
       (io₂ lr₂ rs₂ : Bool) (body₂ : σ → σ × Bool),
       (_async_ensure_storage_dashboards io lr f rs body st).2.2.1 ≠ st →
       (_async_ensure_storage_dashboards io₂ lr₂
           (_async_ensure_storage_dashboards io lr f rs body st).1 rs₂ body₂
           ((_async_ensure_storage_dashboards io lr f rs body st).2.2.1)).2.2.1
         = (_async_ensure_storage_dashboards io lr f rs body st).2.2.1 ∧
       (_async_ensure_storage_dashboards io₂ lr₂
           (_async_ensure_storage_dashboards io lr f rs body st).1 rs₂ body₂
           ((_async_ensure_storage_dashboards io lr f rs body st).2.2.1)).2.2.2
         = false) := by
  refine ⟨?_, ?_, ?_⟩
  · intro f se sf ce cf w written se₂ sf₂ ce₂ cf₂ w₂ h
    rw [ensure_automations_flag f se sf ce cf w]
    rfl
  · intro mk₁ w₁ mk₂ w₂ t file out ht hfile hw
    exact rmw_idem mk₁ w₁ mk₂ w₂ t file out ht hfile hw
  · intro σ io lr f rs body st io₂ lr₂ rs₂ body₂ h
    rw [ensure_dashboards_flag io lr f rs body st h]
    exact ensure_dashboards_true_frame io₂ lr₂ rs₂ body₂ _

/-- The shipped automations file of the C7 witness run. -/
def c7Shipped : FileRead :=
  FileRead.yamlList [some [("id", PyVal.str "a2")]]

/-- The energy template of the C7 witness run. -/
def c7T : List (String × J) := [("energy_sources", J.arr [])]

/-- The store written by the first energy-merge run of the C7 witness. -/
def c7Out : J := J.obj (outOf [] (newDataOf c7T (currentDataOf [])))

theorem claim_C7_witness :
    ((_async_ensure_automations false true c7Shipped false FileRead.blank
        true).2 = some [[("id", PyVal.str "a2")]] ∧
      (_async_ensure_automations
        (_async_ensure_automations false true c7Shipped false FileRead.blank
          true).1 true c7Shipped false FileRead.blank true).2 = Option.none) ∧
    (_read_modify_write true true c7T StoreFile.blank = some c7Out ∧
      _read_modify_write true true c7T (StoreFile.json c7Out) = Option.none) ∧
    ((_async_ensure_storage_dashboards true true false false
        (fun _ : Bool => (true, true)) false).2.2.1 ≠ false ∧
      (_async_ensure_storage_dashboards true true
        (_async_ensure_storage_dashboards true true false false
          (fun _ : Bool => (true, true)) false).1 false
        (fun b : Bool => (b, b))
        ((_async_ensure_storage_dashboards true true false false
          (fun _ : Bool => (true, true)) false).2.2.1)).2.2.1
        = (_async_ensure_storage_dashboards true true false false
          (fun _ : Bool => (true, true)) false).2.2.1 ∧
      (_async_ensure_storage_dashboards true true
        (_async_ensure_storage_dashboards true true false false
          (fun _ : Bool => (true, true)) false).1 false
        (fun b : Bool => (b, b))
        ((_async_ensure_storage_dashboards true true false false
          (fun _ : Bool => (true, true)) false).2.2.1)).2.2.2 = false) :=
  ⟨⟨by decide, claim_C7.1 false true c7Shipped false FileRead.blank true
      [[("id", PyVal.str "a2")]] true c7Shipped false FileRead.blank true
      (by decide)⟩,
   ⟨rfl, claim_C7.2.1 true true true true c7T StoreFile.blank c7Out
      (by decide) (fun j h => nomatch h) rfl⟩,
   ⟨by decide, (claim_C7.2.2 Bool true true false false
      (fun _ => (true, true)) false true true false (fun b => (b, b))
      (by decide)).1,
    (claim_C7.2.2 Bool true true false false
      (fun _ => (true, true)) false true true false (fun b => (b, b))
      (by decide)).2⟩⟩

/-- Claim C9: parse errors in input files never propagate (every routine
here is a total function of the read outcome): the automations merge treats
an unparseable — or non-list — `automations.yaml` exactly as an empty
existing list and continues the merge, and the energy merge aborts its step
without writing when the store file is unparseable. -/
theorem claim_C9 :
    (∀ (shipped : List PyDict) (write_ok : Bool) (f : FileRead),
      (f = FileRead.parseError ∨ f = FileRead.yamlNonList) →
      _read_merge_write shipped true f write_ok =
        _read_merge_write shipped true (FileRead.yamlList []) write_ok) ∧
    _load_yaml_list FileRead.parseError = [] ∧
    (∀ (mkdir_ok write_ok : Bool) (t : List (String × J)),
      _read_modify_write mkdir_ok write_ok t StoreFile.parseErr = Option.none) := by
  refine ⟨?_, rfl, ?_⟩
  · rintro shipped w f (rfl | rfl) <;> rfl
  · intro mk w t
    cases mk <;> rfl

theorem claim_C9_witness :
    (_read_merge_write [[("id", PyVal.str "a9")]] true FileRead.parseError true
        = _read_merge_write [[("id", PyVal.str "a9")]] true
            (FileRead.yamlList []) true) ∧
    _read_modify_write true true [] StoreFile.parseErr = Option.none :=
  ⟨claim_C9.1 [[("id", PyVal.str "a9")]] true FileRead.parseError
      (Or.inl rfl),
    claim_C9.2.2 true true []⟩

theorem claim_C5_witness :
    _read_modify_write true true [("energy_sources", J.arr [])]
      (StoreFile.json (J.obj c5Store)) = some c5Out ∧
    ((∀ k, k ≠ "data" → k ≠ "key" →
      (containsKey c5Store k = true → jObjLookup c5Out k = pyLookup c5Store k) ∧
      (containsKey c5Store k = false →
        jObjLookup c5Out k =
          (if k = "version" then some (J.num 1)
           else if k = "minor_version" then some (J.num 2)
           else Option.none))) ∧
    jObjLookup c5Out "key" = some (J.str "energy")) :=
  ⟨rfl, claim_C5 true true [("energy_sources", J.arr [])] c5Store c5Out rfl⟩

end SolarCube
